import Mathlib

/-!
Shallow embedding of `se3_transformer_pytorch/se3_transformer_pytorch.py`.

Tensors are modelled as total functions from natural-number indices to
rationals together with explicit shape metadata; machine floats become
exact rationals.  Functions of the source that are irrational on floats
(`sqrt` inside `norm`/`LayerNorm`, `exp` inside `softmax`, the pointwise
activation) are abstracted as function parameters `qsqrt`, `qexp`,
`nonlin`: every claim proved below holds for all instantiations of these
parameters, mirroring the fact that the corresponding source properties do
not rest on analytic identities of those maps.

Feature maps (python dicts from degree to tensor) are association lists
keyed by the degree as a natural number (the source uses the string
`str(degree)`; the keying is isomorphic).  A `KeyError` / failed lookup of
the source is an `Except`/`Option` error value here.
-/

namespace SE3

/-- A 4-axis tensor `[batch, points, channels, 2*degree+1]`.  `data` is a
total function; entries outside the recorded shape are junk and never
relied upon. -/
structure STensor where
  b : ℕ
  n : ℕ
  c : ℕ
  m : ℕ
  data : ℕ → ℕ → ℕ → ℕ → ℚ

/-- Placeholder tensor used as the default of a total association-list
lookup; source code would raise `KeyError` instead, and every theorem
below only evaluates lookups at keys that are present. -/
def STensor.zero : STensor := ⟨0, 0, 0, 0, fun _ _ _ _ => 0⟩

/-- A feature map: python dict from degree to a 4-axis tensor, kept as an
ordered association list like a python dict preserves insertion order. -/
abbrev FeatureMap := List (ℕ × STensor)

/-- Total dict lookup used by the embedding (`x[str(degree)]`). -/
def lookupT (d : ℕ) (fm : FeatureMap) : STensor :=
  (List.lookup d fm).getD STensor.zero

/-- The key list (`dict.keys()`). -/
def fmKeys (fm : FeatureMap) : List ℕ := fm.map Prod.fst

/-! ## Fiber (source lines 40-76) -/

/-- `Fiber`: ordered list of `(degree, channel dim)` pairs. -/
abbrev Fiber := List (ℕ × ℕ)

/-- `Fiber.create(num_degrees, dim)` (source line 56-58). -/
def Fiber.create (numDegrees dim : ℕ) : Fiber :=
  (List.range numDegrees).map (fun d => (d, dim))

/-- `Fiber.degrees` (source line 52-54). -/
def Fiber.degrees (f : Fiber) : List ℕ := f.map Prod.fst

/-- `Fiber.__getitem__` (source line 60-61). -/
def Fiber.dimOf (f : Fiber) (d : ℕ) : ℕ := (List.lookup d f).getD 0

/-- `Fiber.__and__` (source lines 69-76): triples `(degree, dim_self,
dim_other)` for degrees present in both fibers, in `self` order. -/
def Fiber.inter (f g : Fiber) : List (ℕ × ℕ × ℕ) :=
  f.filterMap (fun p =>
    if p.1 ∈ g.degrees then some (p.1, p.2, g.dimOf p.1) else none)

/-- `Fiber.__mul__` (source lines 66-67): `itertools.product`, first
factor varying slowest. -/
def Fiber.prodF (f g : Fiber) : List ((ℕ × ℕ) × (ℕ × ℕ)) :=
  f.flatMap (fun a => g.map (fun p => (a, p)))

/-! ## LinearSE3 (source lines 84-101) -/

/-- One per-degree weight matrix `[dim_in, dim_out]`. -/
structure SMatrix where
  din : ℕ
  dout : ℕ
  w : ℕ → ℕ → ℚ

/-- The `ParameterDict` of `LinearSE3`. -/
abbrev LinParams := List (ℕ × SMatrix)

/-- `LinearSE3.__init__` (source lines 91-95): one matrix per degree of
`fiber_in & fiber_out`; the random init values are supplied by `w`. -/
def mkLinear (fIn fOut : Fiber) (w : ℕ → ℕ → ℕ → ℚ) : LinParams :=
  (Fiber.inter fIn fOut).map (fun t => (t.1, ⟨t.2.1, t.2.2, w t.1⟩))

/-- The per-degree output tensor of `LinearSE3.forward`:
`einsum('b n d m, d e -> b n e m', x[degree], weight)` — a contraction
over the channel axis only, the spatial axis `m` carried through. -/
def linearTensor (W : SMatrix) (t : STensor) : STensor :=
  ⟨t.b, t.n, W.dout, t.m,
    fun b n e m => ∑ d ∈ Finset.range W.din, t.data b n d m * W.w d e⟩

/-- `LinearSE3.forward` (source lines 97-101): one output entry per
degree of the weight dict. -/
def linearSE3 (L : LinParams) (x : FeatureMap) : FeatureMap :=
  L.map (fun p => (p.1, linearTensor p.2 (lookupT p.1 x)))

/-! ## ResidualSE3 (source lines 246-255) -/

/-- Broadcast compatibility of one axis pair (pytorch semantics: sizes
must be equal or one of them 1). -/
def bcDim (a b : ℕ) : Option ℕ :=
  if a = b then some a
  else if a = 1 then some b
  else if b = 1 then some a
  else none

/-- Index into a possibly-broadcast axis. -/
def bIdx (dim i : ℕ) : ℕ := if dim = 1 then 0 else i

/-- Pytorch `+` on two 4-axis tensors: `none` models the `RuntimeError`
raised on non-broadcastable shapes. -/
def broadcastAdd (t r : STensor) : Option STensor := do
  let b ← bcDim t.b r.b
  let n ← bcDim t.n r.n
  let c ← bcDim t.c r.c
  let m ← bcDim t.m r.m
  pure ⟨b, n, c, m, fun bi ni ci mi =>
    t.data (bIdx t.b bi) (bIdx t.n ni) (bIdx t.c ci) (bIdx t.m mi) +
    r.data (bIdx r.b bi) (bIdx r.n ni) (bIdx r.c ci) (bIdx r.m mi)⟩

/-- One iteration of the `ResidualSE3.forward` loop body (source lines
250-254): where `res` shares the degree the tensors are added (with
pytorch broadcasting), otherwise the `x` entry passes through. -/
def residualEntry (res : FeatureMap) (p : ℕ × STensor) : Option (ℕ × STensor) :=
  match List.lookup p.1 res with
  | some r => (broadcastAdd p.2 r).map (fun s => (p.1, s))
  | none => some p

/-- `ResidualSE3.forward` (source lines 248-255): iterates over the
degrees of `x` only, so degrees present only in `res` are never
visited. -/
def residualSE3 : FeatureMap → FeatureMap → Option FeatureMap
  | [], _ => some []
  | p :: rest, res => do
      let q ← residualEntry res p
      let tail ← residualSE3 rest res
      pure (q :: tail)

/-! ## masked_mean (source lines 32-36) -/

/-- `masked_mean(tensor, mask, dim=2)` as called from `ConvSE3.forward`
(source line 373) on a 5-axis tensor `[b, n, j, o, c]` with a 3-axis mask
`[b, n, j]`: the mask is unsqueezed onto the trailing axes, masked
entries are zeroed (`masked_fill_`), the tensor is summed over the
neighbor axis and divided by the count of valid neighbors.  A zero count
makes the float division produce `NaN`; the undefined value is modelled
as `none` (no exception is raised either way). -/
def masked_mean (J : ℕ) (t : ℕ → ℕ → ℕ → ℕ → ℕ → ℚ)
    (mask : ℕ → ℕ → ℕ → Bool) (b n o c : ℕ) : Option ℚ :=
  let cnt : ℚ := ∑ j ∈ Finset.range J, if mask b n j then 1 else 0
  let s : ℚ := ∑ j ∈ Finset.range J, if mask b n j then t b n j o c else 0
  if cnt = 0 then none else some (s / cnt)

/-! ## NormSE3 (source lines 257-300) -/

/-- Parameters of one `nn.LayerNorm(chan)`. -/
structure LNParams where
  width : ℕ
  gam : ℕ → ℚ
  bet : ℕ → ℚ

/-- `torch.nn.LayerNorm` epsilon default `1e-5`. -/
def lnEps : ℚ := 1 / 100000

/-- `nn.LayerNorm(width)` over the last axis, biased variance, with the
square root abstracted as `qsqrt`. -/
def layer_norm (qsqrt : ℚ → ℚ) (p : LNParams) (x : ℕ → ℚ) : ℕ → ℚ :=
  let mu : ℚ := (∑ i ∈ Finset.range p.width, x i) / (p.width : ℚ)
  let sig : ℚ := (∑ i ∈ Finset.range p.width, (x i - mu) ^ 2) / (p.width : ℚ)
  fun i => (x i - mu) / qsqrt (sig + lnEps) * p.gam i + p.bet i

/-- Parameters of `NormSE3`: the epsilon floor, the pointwise
nonlinearity (`nn.GELU()` by default, a constructor argument in the
source), and one `LayerNorm` per degree. -/
structure NormParams where
  eps : ℚ
  nonlin : ℚ → ℚ
  transform : List (ℕ × LNParams)

/-- `NormSE3.__init__` (source lines 270-284): one
`Sequential(LayerNorm(chan), nonlin)` per fiber degree. -/
def mkNorm (fiber : Fiber) (eps : ℚ) (nonlin : ℚ → ℚ)
    (gam bet : ℕ → ℕ → ℚ) : NormParams :=
  ⟨eps, nonlin, fiber.map (fun p => (p.1, ⟨p.2, gam p.1, bet p.1⟩))⟩

/-- The clamped norm of `NormSE3.forward` (source line 290):
`t.norm(dim=-1, keepdim=True).clamp(min=eps)`. -/
def clampedNorm (qsqrt : ℚ → ℚ) (eps : ℚ) (t : STensor) (b n c : ℕ) : ℚ :=
  max (qsqrt (∑ m ∈ Finset.range t.m, (t.data b n c m) ^ 2)) eps

/-- The per-degree output tensor of `NormSE3.forward`: the transformed
clamped norm rescales the phase `t / norm`; the shape of `t` is kept
(`.view(*t.shape)`). -/
def normTensor (qsqrt : ℚ → ℚ) (p : NormParams) (d : ℕ) (t : STensor) : STensor :=
  let ln := (List.lookup d p.transform).getD ⟨0, fun _ => 1, fun _ => 0⟩
  ⟨t.b, t.n, t.c, t.m, fun b n c m =>
    p.nonlin (layer_norm qsqrt ln (fun cc => clampedNorm qsqrt p.eps t b n cc) c) *
      (t.data b n c m / clampedNorm qsqrt p.eps t b n c)⟩

/-- `NormSE3.forward` (source lines 286-300): per degree, norm/phase
decomposition with the transformed norm rescaling the phase. -/
def normSE3 (qsqrt : ℚ → ℚ) (p : NormParams) (features : FeatureMap) : FeatureMap :=
  features.map (fun q => (q.1, normTensor qsqrt p q.1 q.2))

/-! ## ConvSE3 / PairwiseConv / RadialFunc (source lines 302-449) -/

/-- Error values: a failed `basis[f'{di},{do}']` lookup (python
`KeyError`), a non-broadcastable tensor addition (python
`RuntimeError`), or a failed `assert` at the start of
`SE3Transformer.forward`. -/
inductive SE3Err where
  | missingKey : ℕ → ℕ → SE3Err
  | shapeMismatch : SE3Err
  | badInput : SE3Err
deriving DecidableEq

/-- A 5-axis per-edge tensor `[batch, points, neighbors, channels,
2*degree+1]` (unpooled convolution output). -/
structure ETensor where
  b : ℕ
  n : ℕ
  k : ℕ
  c : ℕ
  m : ℕ
  data : ℕ → ℕ → ℕ → ℕ → ℕ → ℚ

def ETensor.zero : ETensor := ⟨0, 0, 0, 0, 0, fun _ _ _ _ _ => 0⟩

/-- Per-edge feature map (dict of 5-axis tensors). -/
abbrev EFeatureMap := List (ℕ × ETensor)

def lookupE (d : ℕ) (fm : EFeatureMap) : ETensor :=
  (List.lookup d fm).getD ETensor.zero

/-- Modelled from the spec: the basis tensor for one `(degree_in,
degree_out)` pair returned by the out-of-scope `get_basis` routine,
indexed `[batch, point, neighbor, 2*degree_out+1, 2*degree_in+1,
frequency]` (spec section 3); during the elementwise product with the
radial coefficients the `(channel_out, channel_in)` axes of the
coefficients broadcast against the `(m_out, m_in)` spatial axes here. -/
abbrev BasisTensor := ℕ → ℕ → ℕ → ℕ → ℕ → ℕ → ℚ

/-- The basis map handed to the convolution: dict keyed by the degree
pair. -/
abbrev Basis := List ((ℕ × ℕ) × BasisTensor)

def basisGet (key : ℕ × ℕ) (basis : Basis) : BasisTensor :=
  (List.lookup key basis).getD (fun _ _ _ _ _ _ => 0)

/-- Relative-distance tensor `[batch, points, neighbors]`. -/
abbrev RelDist := ℕ → ℕ → ℕ → ℚ

/-- Edge set: neighbor count, neighbor indices `[b, i, slot]` and the
optional neighbor mask. -/
structure EdgeInfo where
  K : ℕ
  idx : ℕ → ℕ → ℕ → ℕ
  mask : Option (ℕ → ℕ → ℕ → Bool)

/-- Raw parameters of one `RadialFunc` (source lines 386-421): three
linear layers with two `LayerNorm`s between them. -/
structure RadialParams where
  midDim : ℕ
  w1 : ℕ → ℕ → ℚ
  b1 : ℕ → ℚ
  g1 : ℕ → ℚ
  be1 : ℕ → ℚ
  w2 : ℕ → ℕ → ℚ
  b2 : ℕ → ℚ
  g2 : ℕ → ℚ
  be2 : ℕ → ℚ
  w3 : ℕ → ℕ → ℚ
  b3 : ℕ → ℚ

def relu (x : ℚ) : ℚ := max x 0

/-- `nn.Linear`: `y o = Σ_i w o i * x i + b o`. -/
def linLayer (w : ℕ → ℕ → ℚ) (bias : ℕ → ℚ) (inDim : ℕ) (x : ℕ → ℚ) : ℕ → ℚ :=
  fun o => (∑ i ∈ Finset.range inDim, w o i * x i) + bias o

/-- `RadialFunc.forward` (source lines 419-421) on the scalar relative
distance (`edge_dim = 0`, input width 1): the flat output of size
`num_freq * in_dim * out_dim` is rearranged as
`'... (o i f) -> ... o () i () f'`, so the coefficient at
`(o, i, f)` is the flat entry `(o * in_dim + i) * num_freq + f`. -/
def radial_func (qsqrt : ℚ → ℚ) (p : RadialParams) (ncIn numFreq : ℕ) (x : ℚ) :
    ℕ → ℕ → ℕ → ℚ :=
  let h1 := linLayer p.w1 p.b1 1 (fun _ => x)
  let r1 := fun j => relu (layer_norm qsqrt ⟨p.midDim, p.g1, p.be1⟩ h1 j)
  let h2 := linLayer p.w2 p.b2 p.midDim r1
  let r2 := fun j => relu (layer_norm qsqrt ⟨p.midDim, p.g2, p.be2⟩ h2 j)
  let y := linLayer p.w3 p.b3 p.midDim r2
  fun o i f => y ((o * ncIn + i) * numFreq + f)

/-- `PairwiseConv.forward` (source lines 445-449): multiply the radial
coefficients against the basis tensor for the degree pair and sum over
the frequency axis (`num_freq = 2*min(d_in, d_out)+1`).  The flattened
`view` onto `[(2*d_out+1)*nc_out, (2*d_in+1)*nc_in]` is modelled by the
structured index pairs `(channel_out, m_out)` / `(channel_in, m_in)`
(the source flattens them as `o*(2*d_out+1)+m_out` and
`i*(2*d_in+1)+m_in`, an order-preserving bijection). -/
def pairwise_conv (qsqrt : ℚ → ℚ) (p : RadialParams) (dIn ncIn dOut : ℕ)
    (relDist : RelDist) (basisT : BasisTensor) :
    ℕ → ℕ → ℕ → ℕ × ℕ → ℕ × ℕ → ℚ :=
  fun b n j om im =>
    ∑ f ∈ Finset.range (2 * min dIn dOut + 1),
      radial_func qsqrt p ncIn (2 * min dIn dOut + 1) (relDist b n j) om.1 im.1 f *
        basisT b n j om.2 im.2 f

/-- The eager kernel-building loop of `ConvSE3.forward` (source lines
354-357): every `(degree_in, degree_out)` pair of
`fiber_in * fiber_out` looks up `basis[f'{di},{do}']`; the first missing
key raises. -/
def convCheckBasis (pairs : List ((ℕ × ℕ) × (ℕ × ℕ))) (basis : Basis) :
    Except SE3Err Unit :=
  match pairs with
  | [] => .ok ()
  | (a, c) :: rest =>
      if (List.lookup (a.1, c.1) basis).isSome then convCheckBasis rest basis
      else .error (.missingKey a.1 c.1)

/-- Parameters of one `ConvSE3`: fibers, one `RadialFunc` per degree
pair (`kernel_unary`), and the `LinearSE3` of the optional
self-interaction. -/
structure ConvParams where
  fiberIn : Fiber
  fiberOut : Fiber
  rp : ℕ × ℕ → RadialParams
  selfInteract : LinParams

/-- `ConvSE3.__init__` (source lines 312-339): the per-pair radial nets
are supplied by `thetaR`, the self-interaction linear weights by
`thetaW`. -/
def mkConv (fIn fOut : Fiber) (thetaR : ℕ × ℕ → RadialParams)
    (thetaW : ℕ → ℕ → ℕ → ℚ) : ConvParams :=
  ⟨fIn, fOut, thetaR, mkLinear fIn fOut thetaW⟩

/-- `batched_index_select(x, neighbor_indices, dim = 1)` as called from
`ConvSE3.forward` (source line 365): gather the per-point features at
the neighbor indices. -/
def gatherNeighbors (t : STensor) (idx : ℕ → ℕ → ℕ → ℕ) :
    ℕ → ℕ → ℕ → ℕ → ℕ → ℚ :=
  fun b i j c m => t.data b (idx b i j) c m

/-- The degree of the last `fiber_in` entry: the source's `x.shape`
after the accumulation loop refers to the gather of the last input
degree. -/
def lastDegree (f : Fiber) : ℕ := f.foldl (fun _ p => p.1) 0

/-- The pre-pool accumulation of `ConvSE3.forward` (source lines
359-370) for one output degree: gather, flatten, apply the pairwise
kernel and sum over the input degrees.  Indexed
`[b, i, j, channel_out, m_out]`. -/
def convEdgeData (qsqrt : ℚ → ℚ) (p : ConvParams) (inp : FeatureMap)
    (edges : EdgeInfo) (relDist : RelDist) (basis : Basis) (dOut : ℕ) :
    ℕ → ℕ → ℕ → ℕ → ℕ → ℚ :=
  fun b i j o mo =>
    (p.fiberIn.map (fun q =>
      ∑ ci ∈ Finset.range q.2, ∑ mi ∈ Finset.range (2 * q.1 + 1),
        pairwise_conv qsqrt (p.rp (q.1, dOut)) q.1 q.2 dOut relDist
            (basisGet (q.1, dOut) basis) b i j (o, mo) (ci, mi) *
          gatherNeighbors (lookupT q.1 inp) edges.idx b i j ci mi)).sum

/-- `ConvSE3.forward` with `pool = False` (as used for attention keys
and values): the neighbor axis is retained; output shapes come from the
gathered input (`x.shape[:3]`) and the `view` onto
`[..., nc_out, 2*degree_out+1]`. -/
def convSE3_unpooled (qsqrt : ℚ → ℚ) (p : ConvParams) (inp : FeatureMap)
    (edges : EdgeInfo) (relDist : RelDist) (basis : Basis) :
    Except SE3Err EFeatureMap :=
  match convCheckBasis (Fiber.prodF p.fiberIn p.fiberOut) basis with
  | .error e => .error e
  | .ok _ =>
      let xLast := lookupT (lastDegree p.fiberIn) inp
      .ok (p.fiberOut.map (fun q =>
        (q.1, ⟨xLast.b, xLast.n, edges.K, q.2, 2 * q.1 + 1,
          convEdgeData qsqrt p inp edges relDist basis q.1⟩)))

/-- One pooled output entry (the body of the `degree_out` loop, source
lines 359-378): reduce the pre-pool edge tensor over the neighbor axis —
`masked_mean` when a neighbor mask exists (`NaN`-valued entries of an
all-masked row are modelled by the junk value 0; no claim evaluates
them), plain mean otherwise — and `view` the result onto
`[..., nc_out, 2*degree_out+1]` with the leading shape taken from the
last gathered input (`x.shape[:2]`). -/
def convPooledEntry (qsqrt : ℚ → ℚ) (p : ConvParams) (inp : FeatureMap)
    (edges : EdgeInfo) (relDist : RelDist) (basis : Basis) (xLast : STensor)
    (dOut mo : ℕ) : STensor :=
  let pre := convEdgeData qsqrt p inp edges relDist basis dOut
  let pooled : ℕ → ℕ → ℕ → ℕ → ℚ :=
    match edges.mask with
    | some mk => fun b i o c => (masked_mean edges.K pre mk b i o c).getD 0
    | none => fun b i o c =>
        (∑ j ∈ Finset.range edges.K, pre b i j o c) / (edges.K : ℚ)
  ⟨xLast.b, xLast.n, mo, 2 * dOut + 1, pooled⟩

/-- `ConvSE3.forward` with `pool = True` (source lines 341-384): build
the kernels (checking every basis key), pool each output degree, then
add the self-interaction term through `ResidualSE3` when enabled. -/
def convSE3_pooled (qsqrt : ℚ → ℚ) (selfInteraction : Bool) (p : ConvParams)
    (inp : FeatureMap) (edges : EdgeInfo) (relDist : RelDist) (basis : Basis) :
    Except SE3Err FeatureMap :=
  match convCheckBasis (Fiber.prodF p.fiberIn p.fiberOut) basis with
  | .error e => .error e
  | .ok _ =>
      let xLast := lookupT (lastDegree p.fiberIn) inp
      let outputs : FeatureMap := p.fiberOut.map (fun q =>
        (q.1, convPooledEntry qsqrt p inp edges relDist basis xLast q.1 q.2))
      if selfInteraction then
        match residualSE3 outputs (linearSE3 p.selfInteract inp) with
        | some out => .ok out
        | none => .error .shapeMismatch
      else
        .ok outputs

/-! ## AttentionSE3 (source lines 140-225) -/

/-- `-torch.finfo().max` (source line 178): the negated largest finite
value of the default float type (`float32`), i.e. `-(2^24 - 1) * 2^104`
— a finite value, not `-inf`. -/
def maxNegValue : ℚ := -340282346638528859811704183484516925440

/-- `num_left_pad` (source line 213): two prepended slots (self + null)
when self-attention is enabled, one (null) otherwise. -/
def numLeftPad (attendSelf : Bool) : ℕ := if attendSelf then 2 else 1

/-- `F.pad(neighbor_mask, (num_left_pad, 0), value = True)` (source line
214): pad the mask on the left of the neighbor axis with `True`. -/
def padMaskLeft (padN : ℕ) (mask : ℕ → ℕ → ℕ → Bool) : ℕ → ℕ → ℕ → Bool :=
  fun b i j => if j < padN then true else mask b i (j - padN)

/-- The hidden fiber of `AttentionSE3.__init__` (source line 150): every
degree of `fiber` with channel width `heads * dim_head`. -/
def hiddenFiber (fiber : Fiber) (hiddenDim : ℕ) : Fiber :=
  fiber.map (fun p => (p.1, hiddenDim))

/-- Parameters of one `AttentionSE3`.  `scale` holds the float
`dim_head ** -0.5` of source line 151 as a rational parameter (no claim
depends on its value). -/
structure AttnParams where
  fiber : Fiber
  heads : ℕ
  dimHead : ℕ
  attendSelf : Bool
  scale : ℚ
  toQ : LinParams
  toK : ConvParams
  toV : ConvParams
  toOut : LinParams
  nullK : ℕ → ℕ → ℕ → ℕ → ℚ
  nullV : ℕ → ℕ → ℕ → ℕ → ℚ
  toSelfK : LinParams
  toSelfV : LinParams

/-- `AttentionSE3.__init__` (source lines 141-171). -/
def mkAttn (fiber : Fiber) (heads dimHead : ℕ) (attendSelf : Bool) (scale : ℚ)
    (thQ thOut thSK thSV : ℕ → ℕ → ℕ → ℚ)
    (thKr thVr : ℕ × ℕ → RadialParams) (thKw thVw : ℕ → ℕ → ℕ → ℚ)
    (thNK thNV : ℕ → ℕ → ℕ → ℕ → ℚ) : AttnParams :=
  let hf := hiddenFiber fiber (dimHead * heads)
  ⟨fiber, heads, dimHead, attendSelf, scale,
    mkLinear fiber hf thQ,
    mkConv fiber hf thKr thKw,
    mkConv fiber hf thVr thVw,
    mkLinear hf fiber thOut,
    thNK, thNV,
    mkLinear fiber hf thSK, mkLinear fiber hf thSV⟩

/-- The concatenated key/value tensor of one degree (source lines
195-206): split the channel axis into `(heads, dim_head)`, then prepend
the null slot (and the self slot first, when enabled) along the
neighbor axis.  Indexed `[b, h, i, j, d, m]`. -/
def catKV (attendSelf : Bool) (dimHead : ℕ) (nullX : ℕ → ℕ → ℕ → ℚ)
    (selfX : STensor) (x : ETensor) : ℕ → ℕ → ℕ → ℕ → ℕ → ℕ → ℚ :=
  fun b h i j d m =>
    if attendSelf then
      if j = 0 then selfX.data b i (h * dimHead + d) m
      else if j = 1 then nullX h d m
      else x.data b i (j - 2) (h * dimHead + d) m
    else
      if j = 0 then nullX h d m
      else x.data b i (j - 1) (h * dimHead + d) m

/-- The attention logits before masking (source line 208):
`einsum('b h i d m, b h i j d m -> b h i j', q, k) * scale`. -/
def attnSim (deg dimHead : ℕ) (scale : ℚ) (q : STensor)
    (kcat : ℕ → ℕ → ℕ → ℕ → ℕ → ℕ → ℚ) : ℕ → ℕ → ℕ → ℕ → ℚ :=
  fun b h i j =>
    (∑ d ∈ Finset.range dimHead, ∑ m ∈ Finset.range (2 * deg + 1),
      q.data b i (h * dimHead + d) m * kcat b h i j d m) * scale

/-- The logits after the mask fill (source lines 212-215): when a
neighbor mask exists it is left-padded with `True` for the prepended
slots and the masked positions are filled with `maxNegValue`. -/
def attnLogits (attendSelf : Bool) (mask : Option (ℕ → ℕ → ℕ → Bool))
    (sim : ℕ → ℕ → ℕ → ℕ → ℚ) : ℕ → ℕ → ℕ → ℕ → ℚ :=
  match mask with
  | some mk => fun b h i j =>
      if padMaskLeft (numLeftPad attendSelf) mk b i j then sim b h i j
      else maxNegValue
  | none => sim

/-- `softmax` over a row of length `J`, with `exp` abstracted as
`qexp`. -/
def softmaxRow (qexp : ℚ → ℚ) (J : ℕ) (x : ℕ → ℚ) : ℕ → ℚ :=
  fun j => qexp (x j) / ∑ t ∈ Finset.range J, qexp (x t)

/-- The body of the per-degree loop of `AttentionSE3.forward` (source
lines 192-222): build the augmented keys/values, compute the masked
scaled dot-product logits, softmax over the combined neighbor axis,
weight the values, and recombine the heads
(`'b h n d m -> b n (h d) m'`). -/
def attnDegreeOut (qexp : ℚ → ℚ) (p : AttnParams) (deg : ℕ)
    (queries : FeatureMap) (keys vals : EFeatureMap) (selfK selfV : FeatureMap)
    (mask : Option (ℕ → ℕ → ℕ → Bool)) (K : ℕ) : STensor :=
  let q := lookupT deg queries
  let J := numLeftPad p.attendSelf + K
  let kcat := catKV p.attendSelf p.dimHead (p.nullK deg) (lookupT deg selfK) (lookupE deg keys)
  let vcat := catKV p.attendSelf p.dimHead (p.nullV deg) (lookupT deg selfV) (lookupE deg vals)
  let logits := attnLogits p.attendSelf mask (attnSim deg p.dimHead p.scale q kcat)
  let attn : ℕ → ℕ → ℕ → ℕ → ℚ := fun b h i j => softmaxRow qexp J (logits b h i) j
  let outF : ℕ → ℕ → ℕ → ℕ → ℕ → ℚ := fun b h i d m =>
    ∑ j ∈ Finset.range J, attn b h i j * vcat b h i j d m
  ⟨q.b, q.n, p.heads * p.dimHead, 2 * deg + 1,
    fun b i cM m => outF b (cM / p.dimHead) i (cM % p.dimHead) m⟩

/-- The full per-degree loop result of source lines 191-222 (the dict
`outputs` as it stands right before line 224 overwrites it). -/
def attnOutputs (qexp : ℚ → ℚ) (p : AttnParams) (features queries : FeatureMap)
    (keys vals : EFeatureMap) (selfK selfV : FeatureMap)
    (mask : Option (ℕ → ℕ → ℕ → Bool)) (K : ℕ) : FeatureMap :=
  features.map (fun q =>
    (q.1, attnDegreeOut qexp p q.1 queries keys vals selfK selfV mask K))

/-- `AttentionSE3.forward` (source lines 173-225).  The loop of lines
191-222 fills `outputs` per degree, and line 224 then reassigns
`outputs = self.to_out(queries)`, so the attention-weighted values
(bound here to `_deadOutputs`) are discarded and the returned feature
map is `to_out` applied to the queries. -/
def attentionSE3 (qsqrt qexp : ℚ → ℚ) (p : AttnParams) (features : FeatureMap)
    (edges : EdgeInfo) (relDist : RelDist) (basis : Basis) :
    Except SE3Err FeatureMap :=
  let queries := linearSE3 p.toQ features
  match convSE3_unpooled qsqrt p.toK features edges relDist basis,
        convSE3_unpooled qsqrt p.toV features edges relDist basis with
  | .error err, _ => .error err
  | .ok _, .error err => .error err
  | .ok keys, .ok values =>
      let selfK := if p.attendSelf then linearSE3 p.toSelfK features else []
      let selfV := if p.attendSelf then linearSE3 p.toSelfV features else []
      let _deadOutputs :=
        attnOutputs qexp p features queries keys values selfK selfV edges.mask edges.K
      .ok (linearSE3 p.toOut queries)

/-! ## FeedForward and the pre-norm residual blocks (source lines 103-138,
227-244) -/

/-- `NormSE3` default epsilon `1e-12` (source line 274). -/
def epsDefault : ℚ := 1 / 1000000000000

/-- Raw parameters of one `NormSE3` (nonlinearity and the per-degree
`LayerNorm` weights). -/
structure NormTheta where
  nonlin : ℚ → ℚ
  gam : ℕ → ℕ → ℚ
  bet : ℕ → ℕ → ℚ

/-- `NormSE3(fiber)` with the default epsilon, as constructed everywhere
inside the transformer. -/
def mkNormD (fiber : Fiber) (t : NormTheta) : NormParams :=
  mkNorm fiber epsDefault t.nonlin t.gam t.bet

/-- Parameters of one `FeedForwardSE3`. -/
structure FFParams where
  projectIn : LinParams
  nonlinP : NormParams
  projectOut : LinParams

/-- Raw parameters of one `FeedForwardSE3`. -/
structure FFTheta where
  inW : ℕ → ℕ → ℕ → ℚ
  outW : ℕ → ℕ → ℕ → ℚ
  nl : NormTheta

/-- `FeedForwardSE3.__init__` (source lines 104-115): hidden fiber with
`mult = 4` times the channels. -/
def mkFF (fiber : Fiber) (t : FFTheta) : FFParams :=
  let hidden : Fiber := fiber.map (fun p => (p.1, p.2 * 4))
  ⟨mkLinear fiber hidden t.inW, mkNormD hidden t.nl, mkLinear hidden fiber t.outW⟩

/-- `FeedForwardSE3.forward` (source lines 117-121). -/
def feedForwardSE3 (qsqrt : ℚ → ℚ) (p : FFParams) (features : FeatureMap) : FeatureMap :=
  linearSE3 p.projectOut (normSE3 qsqrt p.nonlinP (linearSE3 p.projectIn features))

/-- Parameters of one `FeedForwardBlockSE3`. -/
structure FFBlockParams where
  prenorm : NormParams
  ff : FFParams

/-- `FeedForwardBlockSE3.forward` (source lines 134-138): pre-norm,
feedforward, residual. -/
def ffBlockSE3 (qsqrt : ℚ → ℚ) (p : FFBlockParams) (features : FeatureMap) :
    Except SE3Err FeatureMap :=
  match residualSE3 (feedForwardSE3 qsqrt p.ff (normSE3 qsqrt p.prenorm features)) features with
  | some out => .ok out
  | none => .error .shapeMismatch

/-- Raw parameters of one `AttentionSE3`. -/
structure AttnTheta where
  scale : ℚ
  q : ℕ → ℕ → ℕ → ℚ
  out : ℕ → ℕ → ℕ → ℚ
  sk : ℕ → ℕ → ℕ → ℚ
  sv : ℕ → ℕ → ℕ → ℚ
  kr : ℕ × ℕ → RadialParams
  vr : ℕ × ℕ → RadialParams
  kw : ℕ → ℕ → ℕ → ℚ
  vw : ℕ → ℕ → ℕ → ℚ
  nk : ℕ → ℕ → ℕ → ℕ → ℚ
  nv : ℕ → ℕ → ℕ → ℕ → ℚ

/-- Parameters of one `AttentionBlockSE3`. -/
structure AttnBlockParams where
  prenorm : NormParams
  attn : AttnParams

/-- Raw parameters of one transformer layer (attention block +
feedforward block). -/
structure LayerTheta where
  atn : AttnTheta
  atnPre : NormTheta
  ff : FFTheta
  ffPre : NormTheta

/-- `AttentionBlockSE3.__init__` (source lines 228-238). -/
def mkAttnBlock (fiber : Fiber) (heads dimHead : ℕ) (attendSelf : Bool)
    (t : LayerTheta) : AttnBlockParams :=
  ⟨mkNormD fiber t.atnPre,
    mkAttn fiber heads dimHead attendSelf t.atn.scale t.atn.q t.atn.out t.atn.sk t.atn.sv
      t.atn.kr t.atn.vr t.atn.kw t.atn.vw t.atn.nk t.atn.nv⟩

/-- `FeedForwardBlockSE3.__init__` (source lines 124-132). -/
def mkFFBlock (fiber : Fiber) (t : LayerTheta) : FFBlockParams :=
  ⟨mkNormD fiber t.ffPre, mkFF fiber t.ff⟩

/-- `AttentionBlockSE3.forward` (source lines 240-244): pre-norm,
attention, residual against the raw input. -/
def attnBlockSE3 (qsqrt qexp : ℚ → ℚ) (p : AttnBlockParams) (features : FeatureMap)
    (edges : EdgeInfo) (relDist : RelDist) (basis : Basis) :
    Except SE3Err FeatureMap :=
  match attentionSE3 qsqrt qexp p.attn (normSE3 qsqrt p.prenorm features)
      edges relDist basis with
  | .error e => .error e
  | .ok outputs =>
      match residualSE3 outputs features with
      | some out => .ok out
      | none => .error .shapeMismatch

/-! ## Neighbor selection of SE3Transformer.forward (source lines
499-527) -/

/-- Point coordinates `[batch, points, 3]`. -/
abbrev Coors := ℕ → ℕ → ℕ → ℚ

/-- The columns that survive the self-exclusion `masked_select` on row
`i` (source lines 504, 508): the `n-1` column indices `j ≠ i` in
ascending order. -/
def excludedCols (n i : ℕ) : List ℕ :=
  (List.range n).filter (fun j => j ≠ i)

/-- Source line 505: `repeat(torch.arange(n), 'i -> b i j', b, j = n)`
makes the entry at `[b, i, j]` the ROW index `i` (the einops pattern
repeats the `arange` along `j`), so after the self-exclusion
`masked_select` of line 508 row `i` of `indices` holds `n-1` copies of
`i` itself. -/
def indicesRow (n i : ℕ) : List ℕ :=
  (excludedCols n i).map (fun _ => i)

/-- Relative position `coors[b,i] - coors[b,j]` (source line 506). -/
def relPosF (coors : Coors) (b i j a : ℕ) : ℚ :=
  coors b i a - coors b j a

/-- `rel_pos.norm(dim = -1)` (source line 515), with the square root
abstracted as `qsqrt`. -/
def relDistF (qsqrt : ℚ → ℚ) (coors : Coors) (b i j : ℕ) : ℚ :=
  qsqrt (∑ a ∈ Finset.range 3, (relPosF coors b i j a) ^ 2)

/-- The per-row `(value, position)` pairs fed to `topk` (source line
519): position `pos` indexes the self-excluded candidate axis of length
`n-1`. -/
def candPairs (qsqrt : ℚ → ℚ) (coors : Coors) (n b i : ℕ) : List (ℚ × ℕ) :=
  (List.range (n - 1)).map (fun pos =>
    (relDistF qsqrt coors b i ((excludedCols n i).getD pos 0), pos))

/-- `rel_dist.topk(k, largest = False)`: the `k` pairs of smallest
value.  `topk`'s tie order is implementation-defined; a stable insertion
sort is one valid resolution. -/
def topkSmallest (k : ℕ) (l : List (ℚ × ℕ)) : List (ℚ × ℕ) :=
  (List.insertionSort (fun a c => a.1 ≤ c.1) l).take k

/-- The selected `(neighbor_rel_dist, position)` pairs for row `i`
(source line 519), with `k = min(num_neighbors, n - 1)` (source line
500). -/
def selectedPairs (qsqrt : ℚ → ℚ) (coors : Coors) (numNeighbors n b i : ℕ) :
    List (ℚ × ℕ) :=
  topkSmallest (min numNeighbors (n - 1)) (candPairs qsqrt coors n b i)

/-- Source line 521: `batched_index_select(indices, nearest_indices,
dim = 2)` — the row of `indices` gathered at the selected positions. -/
def neighborIndicesRow (qsqrt : ℚ → ℚ) (coors : Coors) (numNeighbors n b i : ℕ) :
    List ℕ :=
  (selectedPairs qsqrt coors numNeighbors n b i).map
    (fun pr => (indicesRow n i).getD pr.2 0)

/-- Source lines 511-513 and 527: the pairwise point mask
`mask[b,i] * mask[b,j]`, self-excluded and gathered at the selected
positions. -/
def neighborMaskRow (qsqrt : ℚ → ℚ) (coors : Coors) (numNeighbors n : ℕ)
    (mk : ℕ → ℕ → Bool) (b i : ℕ) : List Bool :=
  (selectedPairs qsqrt coors numNeighbors n b i).map
    (fun pr => mk b i && mk b ((excludedCols n i).getD pr.2 0))

/-! ## SE3Transformer (source lines 453-545) -/

/-- Constructor configuration (source lines 455-465). -/
structure SE3Config where
  dim : ℕ
  numNeighbors : ℕ
  heads : ℕ
  dimHead : ℕ
  attendSelf : Bool
  numDegrees : ℕ
  inputDegrees : ℕ
  outputDegrees : ℕ

/-- Raw parameters of a whole `SE3Transformer`; `layers.length` plays
the role of `depth`. -/
structure SE3Theta where
  convInR : ℕ × ℕ → RadialParams
  convInW : ℕ → ℕ → ℕ → ℚ
  layers : List LayerTheta
  convOutR : ℕ × ℕ → RadialParams
  convOutW : ℕ → ℕ → ℕ → ℚ

/-- The built module tree. -/
structure SE3Params where
  cfg : SE3Config
  convIn : ConvParams
  layers : List (AttnBlockParams × FFBlockParams)
  convOut : ConvParams

/-- `SE3Transformer.__init__` (source lines 454-488): fibers
`Fiber.create(input_degrees, dim)`, `Fiber.create(num_degrees, dim)`,
`Fiber.create(output_degrees, dim)`; input and output convolutions with
self-interaction and pooling; `depth` attention/feedforward layer
pairs. -/
def mkSE3 (cfg : SE3Config) (th : SE3Theta) : SE3Params :=
  let fIn := Fiber.create cfg.inputDegrees cfg.dim
  let fHid := Fiber.create cfg.numDegrees cfg.dim
  let fOut := Fiber.create cfg.outputDegrees cfg.dim
  ⟨cfg,
    mkConv fIn fHid th.convInR th.convInW,
    th.layers.map (fun t =>
      (mkAttnBlock fHid cfg.heads cfg.dimHead cfg.attendSelf t, mkFFBlock fHid t)),
    mkConv fHid fOut th.convOutR th.convOutW⟩

/-- Modelled from the spec: `get_basis(rel_pos, max_degree)` lives in
the out-of-scope module `se3_transformer_pytorch.basis`; per spec
sections 3 and 6 it returns a mapping from every `(degree_in,
degree_out)` pair with both degrees at most `max_degree` to an opaque
geometry-derived basis tensor, here supplied by `basisData`. -/
def getBasis (maxDeg : ℕ) (basisData : ℕ × ℕ → BasisTensor) : Basis :=
  (List.range (maxDeg + 1)).flatMap (fun di =>
    (List.range (maxDeg + 1)).map (fun dOut => ((di, dOut), basisData (di, dOut))))

/-- The post-validation pipeline of `SE3Transformer.forward` (source
lines 529-540): input convolution, `depth` (attention, feedforward)
layer pairs, output convolution, all over the realized edge set,
distances and basis. -/
def se3Pipeline (qsqrt qexp : ℚ → ℚ) (p : SE3Params) (feats : FeatureMap)
    (edges : EdgeInfo) (relD : RelDist) (basis : Basis) :
    Except SE3Err FeatureMap :=
  match convSE3_pooled qsqrt true p.convIn feats edges relD basis with
  | .error e => .error e
  | .ok x1 =>
      match p.layers.foldlM (fun acc l => do
          let y ← attnBlockSE3 qsqrt qexp l.1 acc edges relD basis
          ffBlockSE3 qsqrt l.2 y) x1 with
      | .error e => .error e
      | .ok x2 => convSE3_pooled qsqrt true p.convOut x2 edges relD basis

/-- `SE3Transformer.forward` (source lines 490-545): validate the input
feature map (the two `assert`s of lines 496-497 become `badInput`),
build the self-excluded k-nearest-neighbor edge set, request the basis
for maximum degree `num_degrees - 1` (line 523), then run input
convolution, `depth` (attention, feedforward) layer pairs, and the
output convolution.  The feature argument is taken as an explicit
feature map (the `torch.is_tensor` coercion of line 491-492 wraps a raw
tensor into one) and the trailing `return_type` extraction of lines
542-543, which happens after every failure point modelled here, is
omitted. -/
def se3Transformer (qsqrt qexp : ℚ → ℚ) (p : SE3Params) (feats : FeatureMap)
    (coors : Coors) (mask : Option (ℕ → ℕ → Bool))
    (basisData : ℕ × ℕ → BasisTensor) : Except SE3Err FeatureMap :=
  let t0 := lookupT 0 feats
  let n := t0.n
  if t0.c = p.cfg.dim then
    if (fmKeys feats).toFinset = Finset.range p.cfg.inputDegrees then
      let neighbors := min p.cfg.numNeighbors (n - 1)
      let edges : EdgeInfo :=
        { K := neighbors
          idx := fun b i slot =>
            (neighborIndicesRow qsqrt coors p.cfg.numNeighbors n b i).getD slot 0
          mask := mask.map (fun mk => fun b i slot =>
            (neighborMaskRow qsqrt coors p.cfg.numNeighbors n mk b i).getD
              slot false) }
      let relD : RelDist := fun b i slot =>
        ((selectedPairs qsqrt coors p.cfg.numNeighbors n b i).map Prod.fst).getD
          slot 0
      let basis := getBasis (p.cfg.numDegrees - 1) basisData
      se3Pipeline qsqrt qexp p feats edges relD basis
    else .error .badInput
  else .error .badInput

/-! ## Shared lemmas -/

/-- Looking up a key-preserving map of an association list. -/
theorem lookup_map_keyed {β γ : Type} (g : ℕ → β → γ) (k : ℕ) (l : List (ℕ × β)) :
    List.lookup k (l.map (fun p => (p.1, g p.1 p.2))) = (List.lookup k l).map (g k) := by
  induction l with
  | nil => rfl
  | cons p rest ih =>
      by_cases h : k = p.1
      · subst h
        simp [List.lookup]
      · have hb : (k == p.1) = false := beq_false_of_ne h
        simp [List.lookup, hb, ih]

/-- Keys of a key-preserving map of an association list. -/
theorem fmKeys_map_keyed {β : Type} (g : ℕ → β → STensor) (l : List (ℕ × β)) :
    fmKeys (l.map (fun p => (p.1, g p.1 p.2))) = l.map Prod.fst := by
  induction l with
  | nil => rfl
  | cons p rest ih =>
      simp only [List.map_cons, fmKeys] at ih ⊢
      rw [ih]

/-- Structural characterization of `ResidualSE3.forward`: on success the
output has exactly the degrees of `x`; a degree of `x` missing from
`res` passes through unchanged, a degree shared with `res` carries the
broadcast sum, and a degree absent from `x` (in particular one present
only in `res`) is absent from the output. -/
theorem residual_characterization (x res out : FeatureMap)
    (hok : residualSE3 x res = some out) :
    fmKeys out = fmKeys x ∧
    (∀ d t, List.lookup d x = some t → List.lookup d res = none →
      List.lookup d out = some t) ∧
    (∀ d t r, List.lookup d x = some t → List.lookup d res = some r →
      List.lookup d out = broadcastAdd t r) ∧
    (∀ d, List.lookup d x = none → List.lookup d out = none) := by
  induction x generalizing out with
  | nil =>
      simp only [residualSE3, Option.some_inj] at hok
      subst hok
      refine ⟨rfl, ?_, ?_, ?_⟩
      · intro d t h _; cases h
      · intro d t r h _; cases h
      · intro _ _; rfl
  | cons p rest ih =>
      simp only [residualSE3, Option.bind_eq_bind] at hok
      cases hq : residualEntry res p with
      | none => rw [hq] at hok; cases hok
      | some q =>
          rw [hq] at hok
          cases hrest : residualSE3 rest res with
          | none => rw [hrest] at hok; cases hok
          | some tail =>
              rw [hrest] at hok
              simp only [Option.some_bind, Option.pure_def, Option.some_inj] at hok
              subst hok
              obtain ⟨hkeys, hpass, hadd, hdrop⟩ := ih tail hrest
              have hq1 : q.1 = p.1 := by
                simp only [residualEntry] at hq
                cases hlr : List.lookup p.1 res with
                | none => simp only [hlr, Option.some_inj] at hq; rw [← hq]
                | some r =>
                    simp only [hlr] at hq
                    cases hba : broadcastAdd p.2 r with
                    | none => rw [hba] at hq; cases hq
                    | some s =>
                        rw [hba] at hq
                        simp only [Option.map_some', Option.some_inj] at hq
                        rw [← hq]
              refine ⟨?_, ?_, ?_, ?_⟩
              · simp only [fmKeys, List.map_cons] at hkeys ⊢
                rw [hq1, hkeys]
              · intro d t hx hr
                by_cases hd : d = p.1
                · subst hd
                  simp only [residualEntry, hr, Option.some_inj] at hq
                  simp only [List.lookup, beq_self_eq_true] at hx
                  simp only [List.lookup, ← hq, beq_self_eq_true]
                  exact hx
                · have hb : (d == p.1) = false := beq_false_of_ne hd
                  have hbq : (d == q.1) = false := by rw [hq1]; exact hb
                  simp only [List.lookup, hb] at hx
                  simp only [List.lookup, hbq]
                  exact hpass d t hx hr
              · intro d t r hx hr
                by_cases hd : d = p.1
                · subst hd
                  simp only [List.lookup, beq_self_eq_true, Option.some_inj] at hx
                  subst hx
                  simp only [residualEntry, hr] at hq
                  cases hba : broadcastAdd p.2 r with
                  | none => rw [hba] at hq; cases hq
                  | some s =>
                      rw [hba] at hq
                      simp only [Option.map_some', Option.some_inj] at hq
                      simp only [List.lookup, ← hq, beq_self_eq_true]
                · have hb : (d == p.1) = false := beq_false_of_ne hd
                  have hbq : (d == q.1) = false := by rw [hq1]; exact hb
                  simp only [List.lookup, hb] at hx
                  simp only [List.lookup, hbq]
                  exact hadd d t r hx hr
              · intro d hx
                by_cases hd : d = p.1
                · subst hd; simp [List.lookup] at hx
                · have hb : (d == p.1) = false := beq_false_of_ne hd
                  have hbq : (d == q.1) = false := by rw [hq1]; exact hb
                  simp only [List.lookup, hb] at hx
                  simp only [List.lookup, hbq]
                  exact hdrop d hx

/-! ## Claim C2: ResidualSE3 degree handling -/

/-- Concrete `x` input: degree 0 only. -/
def c2x : FeatureMap := [(0, ⟨1, 1, 1, 1, fun _ _ _ _ => 1⟩)]

/-- Concrete `res` input: degrees 0 and 1. -/
def c2res : FeatureMap :=
  [(0, ⟨1, 1, 1, 1, fun _ _ _ _ => 2⟩), (1, ⟨1, 1, 1, 3, fun _ _ _ _ => 3⟩)]

/-- C2 counterexample: degree 1 is present only in `res`, yet the output
of `ResidualSE3.forward` has key list `[0]` — the degree present only in
`res` is dropped, contradicting the claim that it passes through
unchanged. -/
theorem c2_res_only_degree_dropped :
    1 ∈ fmKeys c2res ∧ (residualSE3 c2x c2res).map fmKeys = some [0] := by
  decide

/-- C2 (amended): on success, `ResidualSE3.forward` returns exactly the
degrees of `x`: a degree of `x` missing from `res` passes through
unchanged, a degree shared with `res` carries the elementwise (broadcast)
sum, and a degree absent from `x` — in particular one present only in
`res` — is dropped from the output. -/
theorem c2_residual_amended (x res out : FeatureMap)
    (hok : residualSE3 x res = some out) :
    fmKeys out = fmKeys x ∧
    (∀ d t, List.lookup d x = some t → List.lookup d res = none →
      List.lookup d out = some t) ∧
    (∀ d t r, List.lookup d x = some t → List.lookup d res = some r →
      List.lookup d out = broadcastAdd t r) ∧
    (∀ d, List.lookup d x = none → List.lookup d out = none) :=
  residual_characterization x res out hok

/-- Concrete `x` for the C2 witness: degrees 0 and 2. -/
def c2wx : FeatureMap :=
  [(0, ⟨1, 1, 1, 1, fun _ _ _ _ => 1⟩), (2, ⟨1, 1, 1, 5, fun _ _ _ _ => 4⟩)]

/-- Concrete `res` for the C2 witness: degrees 0 and 1. -/
def c2wres : FeatureMap :=
  [(0, ⟨1, 1, 1, 1, fun _ _ _ _ => 2⟩), (1, ⟨1, 1, 1, 3, fun _ _ _ _ => 3⟩)]

/-- Witness for C2 (amended) at a concrete input. -/
theorem c2_residual_amended_witness :
    ∃ out, residualSE3 c2wx c2wres = some out ∧ fmKeys out = fmKeys c2wx ∧
      List.lookup 1 out = none := by
  refine ⟨_, rfl, ?_, ?_⟩
  · exact (c2_residual_amended c2wx c2wres _ rfl).1
  · exact (c2_residual_amended c2wx c2wres _ rfl).2.2.2 1 rfl

/-! ## Claim C7: ResidualSE3 on mismatched channel counts -/

/-- Concrete `x`: degree 0 with 2 channels. -/
def c7x : FeatureMap := [(0, ⟨1, 1, 2, 1, fun _ _ _ _ => 1⟩)]

/-- Concrete `res`: degree 0 with 1 channel. -/
def c7res : FeatureMap := [(0, ⟨1, 1, 1, 1, fun _ _ _ _ => 5⟩)]

/-- C7 counterexample: the shared degree 0 has mismatched channel counts
(2 vs 1), yet `ResidualSE3.forward` silently succeeds — pytorch
broadcasting accepts a size-1 axis — contradicting the claim that every
channel mismatch raises. -/
theorem c7_broadcast_no_error :
    (lookupT 0 c7x).c = 2 ∧ (lookupT 0 c7res).c = 1 ∧
    (residualSE3 c7x c7res).isSome = true := by
  decide

/-- C7 (amended): `ResidualSE3.forward` raises on a shared degree with
mismatched channel counts exactly when neither count is 1 (shapes not
broadcastable); a mismatched count of 1 instead broadcasts silently. -/
theorem c7_mismatch_raises (x res : FeatureMap) (d : ℕ) (t r : STensor)
    (hx : List.lookup d x = some t) (hr : List.lookup d res = some r)
    (hb : t.b = r.b) (hn : t.n = r.n) (hm : t.m = r.m)
    (hc : t.c ≠ r.c) (hc1 : t.c ≠ 1) (hc2 : r.c ≠ 1) :
    residualSE3 x res = none := by
  have hadd : broadcastAdd t r = none := by
    simp [broadcastAdd, bcDim, hb, hn, hm, hc, hc1, hc2]
  induction x with
  | nil => cases hx
  | cons p rest ih =>
      simp only [residualSE3, Option.bind_eq_bind]
      by_cases hd : d = p.1
      · have hpt : p.2 = t := by
          have hb2 : (d == p.1) = true := beq_iff_eq.mpr hd
          simp only [List.lookup, hb2, Option.some_inj] at hx
          exact hx
        have hentry : residualEntry res p = none := by
          have hrp : List.lookup p.1 res = some r := by rw [← hd]; exact hr
          simp [residualEntry, hrp, hpt, hadd]
        rw [hentry]
        rfl
      · have hb2 : (d == p.1) = false := beq_false_of_ne hd
        simp only [List.lookup, hb2] at hx
        rw [ih hx]
        cases residualEntry res p <;> rfl

/-- Concrete `x` for the C7 witness: degree 0 with 2 channels. -/
def c7wx : FeatureMap := [(0, ⟨1, 1, 2, 1, fun _ _ _ _ => 1⟩)]

/-- Concrete `res` for the C7 witness: degree 0 with 3 channels. -/
def c7wres : FeatureMap := [(0, ⟨1, 1, 3, 1, fun _ _ _ _ => 1⟩)]

/-- Witness for C7 (amended) at a concrete input: channels 2 vs 3 do
raise. -/
theorem c7_mismatch_raises_witness : residualSE3 c7wx c7wres = none :=
  c7_mismatch_raises c7wx c7wres 0 _ _ rfl rfl rfl rfl rfl
    (by decide) (by decide) (by decide)

/-! ## Claim C9: LinearSE3 -/

/-- Keys of `LinearSE3.forward` output are the weight-dict keys. -/
theorem fmKeys_linear (L : LinParams) (x : FeatureMap) :
    fmKeys (linearSE3 L x) = L.map Prod.fst :=
  fmKeys_map_keyed (fun d W => linearTensor W (lookupT d x)) L

/-- Lookup in `LinearSE3.forward` output. -/
theorem lookup_linear (L : LinParams) (x : FeatureMap) (d : ℕ) :
    List.lookup d (linearSE3 L x) =
      (List.lookup d L).map (fun W => linearTensor W (lookupT d x)) :=
  lookup_map_keyed (fun dd W => linearTensor W (lookupT dd x)) d L

/-- C9: `LinearSE3.forward` produces output exactly for the degrees of
`fiber_in & fiber_out` (degrees outside the intersection are dropped),
and each output entry keeps the batch/point/spatial shape of the input
degree while contracting the channel axis only: the value at spatial
position `m` is a linear combination of the input channels at the same
`m`. -/
theorem c9_linear_contracts_channels_only (fIn fOut : Fiber)
    (w : ℕ → ℕ → ℕ → ℚ) (x : FeatureMap) :
    fmKeys (linearSE3 (mkLinear fIn fOut w) x) =
      (Fiber.inter fIn fOut).map (fun t => t.1) ∧
    (∀ d W, List.lookup d (mkLinear fIn fOut w) = some W →
      List.lookup d (linearSE3 (mkLinear fIn fOut w) x) =
        some (linearTensor W (lookupT d x)) ∧
      (linearTensor W (lookupT d x)).b = (lookupT d x).b ∧
      (linearTensor W (lookupT d x)).n = (lookupT d x).n ∧
      (linearTensor W (lookupT d x)).c = W.dout ∧
      (linearTensor W (lookupT d x)).m = (lookupT d x).m ∧
      ∀ b n e m, (linearTensor W (lookupT d x)).data b n e m =
        ∑ dd ∈ Finset.range W.din, (lookupT d x).data b n dd m * W.w dd e) := by
  constructor
  · rw [fmKeys_linear]
    simp [mkLinear]
  · intro d W hW
    refine ⟨?_, rfl, rfl, rfl, rfl, fun b n e m => rfl⟩
    rw [lookup_linear, hW]
    rfl

/-- Concrete input fiber for the C9 witness. -/
def c9f : Fiber := [(0, 2), (1, 2)]

/-- Concrete output fiber for the C9 witness (intersection with `c9f` is
degree 1 only). -/
def c9g : Fiber := [(1, 3), (2, 3)]

/-- Concrete weights for the C9 witness. -/
def c9w : ℕ → ℕ → ℕ → ℚ := fun _ _ _ => 1

/-- Concrete feature map for the C9 witness; the degree-1 entry's value
at channel `d` and spatial position `m` is `(d+1)*(m+1)`. -/
def c9x : FeatureMap :=
  [(0, ⟨1, 1, 2, 1, fun _ _ _ _ => 7⟩),
   (1, ⟨1, 1, 2, 3, fun _ _ d m => ((d : ℚ) + 1) * ((m : ℚ) + 1)⟩)]

/-- Witness for C9 at a concrete input: output exists only at degree 1,
and its spatial positions 0 and 2 hold the channel contractions `3` and
`9` of the inputs at the same positions. -/
theorem c9_linear_witness :
    ∃ W, List.lookup 1 (mkLinear c9f c9g c9w) = some W ∧
      List.lookup 1 (linearSE3 (mkLinear c9f c9g c9w) c9x) =
        some (linearTensor W (lookupT 1 c9x)) ∧
      fmKeys (linearSE3 (mkLinear c9f c9g c9w) c9x) = [1] ∧
      (linearTensor W (lookupT 1 c9x)).data 0 0 0 0 = 3 ∧
      (linearTensor W (lookupT 1 c9x)).data 0 0 0 2 = 9 := by
  refine ⟨_, rfl, ?_, ?_, ?_, ?_⟩
  · exact ((c9_linear_contracts_channels_only c9f c9g c9w c9x).2 1 _ rfl).1
  · exact (c9_linear_contracts_channels_only c9f c9g c9w c9x).1
  · have hx1 : lookupT 1 c9x =
        ⟨1, 1, 2, 3, fun _ _ d m => ((d : ℚ) + 1) * ((m : ℚ) + 1)⟩ := rfl
    simp [linearTensor, hx1, c9w, c9g, Fiber.dimOf, Finset.sum_range_succ]
    norm_num
  · have hx1 : lookupT 1 c9x =
        ⟨1, 1, 2, 3, fun _ _ d m => ((d : ℚ) + 1) * ((m : ℚ) + 1)⟩ := rfl
    simp [linearTensor, hx1, c9w, c9g, Fiber.dimOf, Finset.sum_range_succ]
    norm_num

/-! ## Claim C10: NormSE3 epsilon floor -/

/-- Lookup in `NormSE3.forward` output. -/
theorem lookup_norm (qsqrt : ℚ → ℚ) (p : NormParams) (features : FeatureMap)
    (d : ℕ) :
    List.lookup d (normSE3 qsqrt p features) =
      (List.lookup d features).map (normTensor qsqrt p d) :=
  lookup_map_keyed (fun dd t => normTensor qsqrt p dd t) d features

/-- C10: with a positive epsilon (the default is `1e-12`), the clamped
norm of `NormSE3.forward` is bounded below by epsilon — so the division
producing the phase never divides by zero — and the per-degree output is
the transformed norm times the phase, with exactly the input tensor's
shape. -/
theorem c10_norm_eps_floor (qsqrt : ℚ → ℚ) (p : NormParams)
    (features : FeatureMap) (hpos : 0 < p.eps) :
    (∀ t b n c, p.eps ≤ clampedNorm qsqrt p.eps t b n c ∧
      clampedNorm qsqrt p.eps t b n c ≠ 0) ∧
    fmKeys (normSE3 qsqrt p features) = fmKeys features ∧
    (∀ d t, List.lookup d features = some t →
      List.lookup d (normSE3 qsqrt p features) = some (normTensor qsqrt p d t) ∧
      (normTensor qsqrt p d t).b = t.b ∧
      (normTensor qsqrt p d t).n = t.n ∧
      (normTensor qsqrt p d t).c = t.c ∧
      (normTensor qsqrt p d t).m = t.m ∧
      ∀ b n c m, (normTensor qsqrt p d t).data b n c m =
        p.nonlin (layer_norm qsqrt
            ((List.lookup d p.transform).getD ⟨0, fun _ => 1, fun _ => 0⟩)
            (fun cc => clampedNorm qsqrt p.eps t b n cc) c) *
          (t.data b n c m / clampedNorm qsqrt p.eps t b n c)) := by
  refine ⟨?_, ?_, ?_⟩
  · intro t b n c
    have hle : p.eps ≤ clampedNorm qsqrt p.eps t b n c := le_max_right _ _
    exact ⟨hle, ne_of_gt (lt_of_lt_of_le hpos hle)⟩
  · exact fmKeys_map_keyed (fun d t => normTensor qsqrt p d t) features
  · intro d t ht
    refine ⟨?_, rfl, rfl, rfl, rfl, fun b n c m => rfl⟩
    rw [lookup_norm, ht]
    rfl

/-- Concrete feature map for the C10 witness. -/
def c10x : FeatureMap := [(0, ⟨1, 1, 1, 1, fun _ _ _ _ => 5⟩)]

/-- Concrete `NormSE3` parameters for the C10 witness, with the default
epsilon `1e-12`. -/
def c10p : NormParams := mkNorm [(0, 1)] epsDefault (fun x => x) (fun _ _ => 1) (fun _ _ => 0)

/-- Witness for C10 at a concrete input (with `qsqrt` instantiated to a
map sending everything to 0, exercising the clamp): the divisor is
bounded below by the positive default epsilon, and the output entry has
the input's shape. -/
theorem c10_norm_witness :
    (0 : ℚ) < epsDefault ∧
    epsDefault ≤ clampedNorm (fun _ => 0) c10p.eps (lookupT 0 c10x) 0 0 0 ∧
    clampedNorm (fun _ => 0) c10p.eps (lookupT 0 c10x) 0 0 0 ≠ 0 ∧
    ∃ T, List.lookup 0 (normSE3 (fun _ => 0) c10p c10x) = some T ∧
      T.b = 1 ∧ T.n = 1 ∧ T.c = 1 ∧ T.m = 1 := by
  have hpos : (0 : ℚ) < c10p.eps := by norm_num [c10p, mkNorm, epsDefault]
  have h := c10_norm_eps_floor (fun _ => 0) c10p c10x hpos
  refine ⟨by norm_num [epsDefault], (h.1 (lookupT 0 c10x) 0 0 0).1,
    (h.1 (lookupT 0 c10x) 0 0 0).2, ?_⟩
  obtain ⟨hl, hb, hn, hc, hm, _⟩ := h.2.2 0 (lookupT 0 c10x) rfl
  exact ⟨_, hl, hb, hn, hc, hm⟩

/-! ## Claim C4: masked_mean -/

/-- The closed form of `masked_mean` (helper shared with the C4
theorem). -/
theorem c4_masked_mean_aux (J : ℕ) (t : ℕ → ℕ → ℕ → ℕ → ℕ → ℚ)
    (mask : ℕ → ℕ → ℕ → Bool) (b n o c : ℕ) :
    masked_mean J t mask b n o c =
      (if ((Finset.range J).filter (fun j => mask b n j = true)).card = 0 then none
       else some ((∑ j ∈ (Finset.range J).filter (fun j => mask b n j = true),
          t b n j o c) /
        (((Finset.range J).filter (fun j => mask b n j = true)).card : ℚ))) := by
  have hcnt : (∑ j ∈ Finset.range J, if mask b n j then (1 : ℚ) else 0) =
      (((Finset.range J).filter (fun j => mask b n j = true)).card : ℚ) := by
    rw [Finset.sum_boole]
  have hsum : (∑ j ∈ Finset.range J, if mask b n j then t b n j o c else 0) =
      ∑ j ∈ (Finset.range J).filter (fun j => mask b n j = true), t b n j o c := by
    rw [Finset.sum_filter]
  simp only [masked_mean, hcnt, hsum, Nat.cast_eq_zero]

/-- C4: in `masked_mean`, entries at masked-out positions contribute
exactly zero (two tensors agreeing on the valid positions give equal
results, and the reduction is the sum over valid positions only), the
divisor is the count of valid entries along the reduced axis, and a zero
valid count yields the undefined/`NaN` value (`none`) rather than an
exception — `masked_mean` is total. -/
theorem c4_masked_mean (J : ℕ) (t t2 : ℕ → ℕ → ℕ → ℕ → ℕ → ℚ)
    (mask : ℕ → ℕ → ℕ → Bool) (b n o c : ℕ) :
    ((∀ j, j < J → mask b n j = true → t b n j o c = t2 b n j o c) →
      masked_mean J t mask b n o c = masked_mean J t2 mask b n o c) ∧
    masked_mean J t mask b n o c =
      (if ((Finset.range J).filter (fun j => mask b n j = true)).card = 0 then none
       else some ((∑ j ∈ (Finset.range J).filter (fun j => mask b n j = true),
          t b n j o c) /
        (((Finset.range J).filter (fun j => mask b n j = true)).card : ℚ))) := by
  have hcnt : (∑ j ∈ Finset.range J, if mask b n j then (1 : ℚ) else 0) =
      (((Finset.range J).filter (fun j => mask b n j = true)).card : ℚ) := by
    rw [Finset.sum_boole]
  have hsum : (∑ j ∈ Finset.range J, if mask b n j then t b n j o c else 0) =
      ∑ j ∈ (Finset.range J).filter (fun j => mask b n j = true), t b n j o c := by
    rw [Finset.sum_filter]
  have hform : masked_mean J t mask b n o c =
      (if ((Finset.range J).filter (fun j => mask b n j = true)).card = 0 then none
       else some ((∑ j ∈ (Finset.range J).filter (fun j => mask b n j = true),
          t b n j o c) /
        (((Finset.range J).filter (fun j => mask b n j = true)).card : ℚ))) := by
    simp only [masked_mean, hcnt, hsum, Nat.cast_eq_zero]
  refine ⟨?_, hform⟩
  intro hagree
  have hsum2 : (∑ j ∈ (Finset.range J).filter (fun j => mask b n j = true),
      t b n j o c) =
      ∑ j ∈ (Finset.range J).filter (fun j => mask b n j = true), t2 b n j o c := by
    refine Finset.sum_congr rfl ?_
    intro j hj
    simp only [Finset.mem_filter, Finset.mem_range] at hj
    exact hagree j hj.1 hj.2
  have hform2 := c4_masked_mean_aux J t2 mask b n o c
  rw [hform, hform2, hsum2]

/-- Witness for C4 at a concrete input: with two valid and one masked
slot, changing the masked entry does not change the result; the divisor
is the valid count 2; with an all-false mask the result is the undefined
value `none`. -/
theorem c4_masked_mean_witness :
    masked_mean 3 (fun _ _ j _ _ => (j : ℚ)) (fun _ _ j => j ≠ 1) 0 0 0 0 =
      masked_mean 3 (fun _ _ j _ _ => if j = 1 then 99 else (j : ℚ))
        (fun _ _ j => j ≠ 1) 0 0 0 0 ∧
    masked_mean 3 (fun _ _ j _ _ => (j : ℚ)) (fun _ _ j => j ≠ 1) 0 0 0 0 =
      some 1 ∧
    masked_mean 3 (fun _ _ j _ _ => (j : ℚ)) (fun _ _ _ => false) 0 0 0 0 = none := by
  refine ⟨(c4_masked_mean 3 _ _ _ 0 0 0 0).1 ?_, ?_, ?_⟩
  · intro j hj hm
    interval_cases j <;> simp_all
  · norm_num [masked_mean, Finset.sum_range_succ]
  · norm_num [masked_mean, Finset.sum_range_succ]

/-! ## Claim C6: attention mask padding and logit fill -/

/-- C6: when a neighbor mask is supplied, the logits of
`AttentionSE3.forward` are built by left-padding the mask with `valid`
for exactly the prepended slots (two when self-attention is enabled, one
for the null slot otherwise) and filling the masked positions with
`maxNegValue` — the minimum representable finite `float32` value
`-(2^24 - 1) * 2^104`, not a literal negative infinity — while the
valid and padded positions keep their raw scaled dot-product logits. -/
theorem c6_mask_pad_and_fill (attendSelf : Bool) (mk : ℕ → ℕ → ℕ → Bool)
    (sim : ℕ → ℕ → ℕ → ℕ → ℚ) (b h i j : ℕ) :
    numLeftPad true = 2 ∧ numLeftPad false = 1 ∧
    (j < numLeftPad attendSelf →
      attnLogits attendSelf (some mk) sim b h i j = sim b h i j) ∧
    (numLeftPad attendSelf ≤ j → mk b i (j - numLeftPad attendSelf) = true →
      attnLogits attendSelf (some mk) sim b h i j = sim b h i j) ∧
    (numLeftPad attendSelf ≤ j → mk b i (j - numLeftPad attendSelf) = false →
      attnLogits attendSelf (some mk) sim b h i j = maxNegValue) ∧
    maxNegValue = -((2 ^ 24 - 1) * 2 ^ 104) := by
  refine ⟨rfl, rfl, ?_, ?_, ?_, by norm_num [maxNegValue]⟩
  · intro hj
    simp [attnLogits, padMaskLeft, hj]
  · intro hj hm
    have hnj : ¬ j < numLeftPad attendSelf := not_lt.mpr hj
    simp [attnLogits, padMaskLeft, hnj, hm]
  · intro hj hm
    have hnj : ¬ j < numLeftPad attendSelf := not_lt.mpr hj
    simp [attnLogits, padMaskLeft, hnj, hm]

/-- Witness for C6 at concrete inputs: with self-attention on, slot 5
(a masked neighbor) is filled with the finite minimum value and slot 1
(a padded prepended slot) keeps its raw logit. -/
theorem c6_mask_pad_and_fill_witness :
    attnLogits true (some (fun _ _ _ => false)) (fun _ _ _ _ => 3) 0 0 0 5 =
      maxNegValue ∧
    attnLogits true (some (fun _ _ _ => false)) (fun _ _ _ _ => 3) 0 0 0 1 = 3 :=
  ⟨(c6_mask_pad_and_fill true (fun _ _ _ => false) (fun _ _ _ _ => 3)
      0 0 0 5).2.2.2.2.1 (by decide) rfl,
   (c6_mask_pad_and_fill true (fun _ _ _ => false) (fun _ _ _ _ => 3)
      0 0 0 1).2.2.1 (by decide)⟩

/-! ## Claims C1 and C3: what AttentionSE3.forward actually returns -/

/-- Every successful `AttentionSE3.forward` call returns `to_out`
applied to the queries — line 224 of the source overwrites the
per-degree attention results with `self.to_out(queries)`. -/
theorem attention_ok_val (qsqrt qexp : ℚ → ℚ) (p : AttnParams)
    (features : FeatureMap) (edges : EdgeInfo) (relDist : RelDist)
    (basis : Basis) (o : FeatureMap)
    (h : attentionSE3 qsqrt qexp p features edges relDist basis = .ok o) :
    o = linearSE3 p.toOut (linearSE3 p.toQ features) := by
  unfold attentionSE3 at h
  cases hk : convSE3_unpooled qsqrt p.toK features edges relDist basis with
  | error err => rw [hk] at h; cases h
  | ok keys =>
      rw [hk] at h
      cases hv : convSE3_unpooled qsqrt p.toV features edges relDist basis with
      | error err => rw [hv] at h; cases h
      | ok values =>
          rw [hv] at h
          simp only [Except.ok.injEq] at h
          exact h.symm

/-- C3: the output of `AttentionSE3.forward` is independent of the
neighbor indices, neighbor mask, relative distances, basis map, the
key/value convolution parameters, the null and self key/value
parameters, and even of the softmax-exponential and square-root models:
two succeeding calls that agree on the input feature map and on the
`to_q` and `to_out` weights return equal outputs. -/
theorem c3_attention_ignores_kv (qs1 qs2 qe1 qe2 : ℚ → ℚ)
    (p1 p2 : AttnParams) (features : FeatureMap)
    (e1 e2 : EdgeInfo) (rd1 rd2 : RelDist) (b1 b2 : Basis)
    (o1 o2 : FeatureMap)
    (hq : p1.toQ = p2.toQ) (ho : p1.toOut = p2.toOut)
    (h1 : attentionSE3 qs1 qe1 p1 features e1 rd1 b1 = .ok o1)
    (h2 : attentionSE3 qs2 qe2 p2 features e2 rd2 b2 = .ok o2) :
    o1 = o2 := by
  rw [attention_ok_val qs1 qe1 p1 features e1 rd1 b1 o1 h1,
    attention_ok_val qs2 qe2 p2 features e2 rd2 b2 o2 h2, hq, ho]

/-- Radial parameters with hidden width 1 and all-zero final layer
(concrete instantiation used by the C1/C3 evaluations). -/
def radZero : RadialParams :=
  ⟨1, fun _ _ => 0, fun _ => 0, fun _ => 1, fun _ => 0,
    fun _ _ => 0, fun _ => 0, fun _ => 1, fun _ => 0,
    fun _ _ => 0, fun _ => 0⟩

/-- Degree-0 fiber of width 1. -/
def c1fiber : Fiber := [(0, 1)]

/-- Concrete attention module: one head of dimension 1, identity-like
`to_q`/`to_out` weights, zero key/value convolutions and zero null
keys/values. -/
def c1p : AttnParams :=
  mkAttn c1fiber 1 1 false 1 (fun _ _ _ => 1) (fun _ _ _ => 1)
    (fun _ _ _ => 0) (fun _ _ _ => 0) (fun _ => radZero) (fun _ => radZero)
    (fun _ _ _ => 0) (fun _ _ _ => 0) (fun _ _ _ _ => 0) (fun _ _ _ _ => 0)

/-- Concrete feature map: one batch, one point, one channel, value 1. -/
def c1x : FeatureMap := [(0, ⟨1, 1, 1, 1, fun _ _ _ _ => 1⟩)]

/-- Concrete edge set: a single neighbor slot, no mask. -/
def c1e : EdgeInfo := ⟨1, fun _ _ _ => 0, none⟩

/-- Concrete relative distances. -/
def c1rd : RelDist := fun _ _ _ => 0

/-- Concrete basis: the degree pair `(0,0)` mapped to the zero tensor. -/
def c1basis : Basis := [((0, 0), fun _ _ _ _ _ _ => 0)]

/-- C1 failing input: at this concrete input `AttentionSE3.forward`
returns `to_out(to_q(features))` with value 1 at the only coordinate,
while the attention-weighted sum of the (null-augmented) values
recombined across heads and projected through `to_out` — what the claim
says the forward returns — has value 0 there.  The per-degree attention
results (`attnOutputs`) are computed and then discarded by line 224 of
the source. -/
theorem c1_attention_bug_at_input :
    ∃ keys vals,
      convSE3_unpooled (fun _ => 1) c1p.toK c1x c1e c1rd c1basis = .ok keys ∧
      convSE3_unpooled (fun _ => 1) c1p.toV c1x c1e c1rd c1basis = .ok vals ∧
      attentionSE3 (fun _ => 1) (fun _ => 1) c1p c1x c1e c1rd c1basis =
        .ok (linearSE3 c1p.toOut (linearSE3 c1p.toQ c1x)) ∧
      (lookupT 0 (linearSE3 c1p.toOut (linearSE3 c1p.toQ c1x))).data 0 0 0 0 = 1 ∧
      (lookupT 0 (linearSE3 c1p.toOut (attnOutputs (fun _ => 1) c1p c1x
          (linearSE3 c1p.toQ c1x) keys vals [] [] none c1e.K))).data 0 0 0 0 = 0 := by
  refine ⟨_, _, rfl, rfl, rfl, ?_, ?_⟩
  · have hWq : c1p.toQ = [(0, ⟨1, 1, fun _ _ => 1⟩)] := rfl
    have hWo : c1p.toOut = [(0, ⟨1, 1, fun _ _ => 1⟩)] := rfl
    simp [hWq, hWo, linearSE3, linearTensor, lookupT, List.lookup, c1x,
      Finset.sum_range_succ]
  · have hWo : c1p.toOut = [(0, ⟨1, 1, fun _ _ => 1⟩)] := rfl
    have hb0 : basisGet (0, 0) c1basis = fun _ _ _ _ _ _ => (0 : ℚ) := rfl
    simp [hWo, linearSE3, linearTensor, lookupT, lookupE, List.lookup,
      attnOutputs, attnDegreeOut, catKV, softmaxRow, attnSim, attnLogits,
      numLeftPad, convSE3_unpooled, convEdgeData, pairwise_conv, hb0,
      gatherNeighbors, c1p, c1x, c1e, c1fiber, mkAttn, mkConv, mkLinear,
      hiddenFiber, Fiber.prodF, Fiber.inter, lastDegree, c1basis,
      Finset.sum_range_succ]
    exact Or.inr rfl

/-- Radial parameters with nonzero weights (used by the C3 witness to
vary the key/value convolutions). -/
def radOne : RadialParams :=
  ⟨1, fun _ _ => 1, fun _ => 2, fun _ => 1, fun _ => 0,
    fun _ _ => 1, fun _ => 1, fun _ => 1, fun _ => 0,
    fun _ _ => 1, fun _ => 2⟩

/-- Second attention module for the C3 witness: same `to_q`/`to_out`
weights as `c1p` but self-attention enabled, a different scale, nonzero
key/value convolutions, and nonzero null/self key/value parameters. -/
def c3p2 : AttnParams :=
  mkAttn c1fiber 1 1 true 7 (fun _ _ _ => 1) (fun _ _ _ => 1)
    (fun _ _ _ => 9) (fun _ _ _ => 4) (fun _ => radOne) (fun _ => radOne)
    (fun _ _ _ => 2) (fun _ _ _ => 3) (fun _ _ _ _ => 5) (fun _ _ _ _ => 6)

/-- Second edge set for the C3 witness: different neighbor count and
indices, and a neighbor mask present. -/
def c3e2 : EdgeInfo := ⟨3, fun _ _ _ => 1, some (fun _ _ _ => false)⟩

/-- Second relative distances for the C3 witness. -/
def c3rd2 : RelDist := fun _ _ _ => 9

/-- Second basis for the C3 witness: nonzero tensor at the `(0,0)`
key. -/
def c3b2 : Basis := [((0, 0), fun _ _ _ _ _ _ => 4)]

/-- Witness for C3 at concrete inputs: the two calls differ in the edge
set, mask, distances, basis, key/value convolutions, null/self
parameters, scale, self-attention flag and the `qsqrt`/`qexp` models,
yet return equal outputs. -/
theorem c3_attention_ignores_kv_witness :
    ∃ o1 o2,
      attentionSE3 (fun _ => 1) (fun _ => 1) c1p c1x c1e c1rd c1basis = .ok o1 ∧
      attentionSE3 (fun _ => 2) (fun _ => 3) c3p2 c1x c3e2 c3rd2 c3b2 = .ok o2 ∧
      o1 = o2 := by
  refine ⟨_, _, rfl, rfl, ?_⟩
  exact c3_attention_ignores_kv (fun _ => 1) (fun _ => 2) (fun _ => 1)
    (fun _ => 3) c1p c3p2 c1x c1e c3e2 c1rd c3rd2 c1basis c3b2 _ _
    rfl rfl rfl rfl

/-! ## Claim C5: neighbor selection of SE3Transformer.forward -/

/-- Concrete coordinates for the C5 evaluation: three points on the
x-axis at 0, 10 and 11. -/
def c5coors : Coors := fun _ i a =>
  if a = 0 then (if i = 0 then 0 else if i = 1 then 10 else 11) else 0

/-- C5 failing input: with three points at x-positions 0, 10, 11 and
`num_neighbors = 1`, point 1's candidate columns after self-exclusion
are `[0, 2]`, the selection has the claimed length `min 1 (3-1) = 1` and
picks candidate position 1 (point 2, the genuinely nearest by
distance) — but the gathered neighbor index is `[1]`, the point's OWN
index: source line 505 builds the `indices` tensor with the einops
pattern `'i -> b i j'`, which fills it with the row index, so every
selected neighbor index equals the center point itself, contradicting
the claim (and the source's own comments) that self-edges are
excluded. -/
theorem c5_neighbor_self_index_bug :
    excludedCols 3 1 = [0, 2] ∧
    (selectedPairs (fun q => q) c5coors 1 3 0 1).length = min 1 (3 - 1) ∧
    (selectedPairs (fun q => q) c5coors 1 3 0 1).map Prod.snd = [1] ∧
    neighborIndicesRow (fun q => q) c5coors 1 3 0 1 = [1] := by
  have hcols : excludedCols 3 1 = [0, 2] := by decide
  have hdist0 : relDistF (fun q => q) c5coors 0 1 0 = 100 := by
    simp [relDistF, relPosF, c5coors, Finset.sum_range_succ]
    norm_num
  have hdist2 : relDistF (fun q => q) c5coors 0 1 2 = 1 := by
    simp [relDistF, relPosF, c5coors, Finset.sum_range_succ]
    norm_num
  have hcand : candPairs (fun q => q) c5coors 3 0 1 = [(100, 0), (1, 1)] := by
    simp [candPairs, hcols, List.range_succ]
    exact ⟨hdist0, hdist2⟩
  have hsel : selectedPairs (fun q => q) c5coors 1 3 0 1 = [(1, 1)] := by
    rw [selectedPairs, hcand]
    norm_num [topkSmallest, List.insertionSort, List.orderedInsert]
  refine ⟨hcols, ?_, ?_, ?_⟩
  · rw [hsel]; rfl
  · rw [hsel]; rfl
  · simp [neighborIndicesRow, hsel, indicesRow, hcols]
    decide

/-! ## Claim C8: infrastructure — association-list and fiber lemmas -/

theorem lookup_isSome_iff {α β : Type} [BEq α] [LawfulBEq α] (a : α)
    (l : List (α × β)) : (List.lookup a l).isSome ↔ a ∈ l.map Prod.fst := by
  induction l with
  | nil => simp [List.lookup]
  | cons p rest ih =>
      by_cases h : a = p.1
      · subst h; simp [List.lookup]
      · have hb : (a == p.1) = false := beq_false_of_ne h
        simp [List.lookup, hb, ih, h]

theorem lookup_of_mem_nodup {β : Type} {l : List (ℕ × β)} {p : ℕ × β}
    (hnd : (l.map Prod.fst).Nodup) (hm : p ∈ l) :
    List.lookup p.1 l = some p.2 := by
  induction l with
  | nil => cases hm
  | cons q rest ih =>
      simp only [List.map_cons, List.nodup_cons] at hnd
      rcases List.mem_cons.mp hm with h | h
      · subst h; simp [List.lookup]
      · have hne : p.1 ≠ q.1 := by
          intro he
          exact hnd.1 (he ▸ (List.mem_map.mpr ⟨p, h, rfl⟩))
        have hb : (p.1 == q.1) = false := beq_false_of_ne hne
        simp only [List.lookup, hb]
        exact ih hnd.2 h

theorem lookup_append {α β : Type} [BEq α] (a : α) (l1 l2 : List (α × β)) :
    List.lookup a (l1 ++ l2) =
      match List.lookup a l1 with
      | some v => some v
      | none => List.lookup a l2 := by
  induction l1 with
  | nil => simp [List.lookup]
  | cons p rest ih =>
      simp only [List.cons_append, List.lookup]
      cases a == p.1 <;> simp [ih]

/-- `Fiber.create` is the range paired with the constant width. -/
theorem lookup_create (k dim d : ℕ) :
    List.lookup d (Fiber.create k dim) =
      if d < k then some dim else none := by
  induction k with
  | zero => simp [Fiber.create, List.lookup]
  | succ k ih =>
      have hsplit : Fiber.create (k + 1) dim =
          Fiber.create k dim ++ [(k, dim)] := by
        simp [Fiber.create, List.range_succ]
      rw [hsplit, lookup_append, ih]
      by_cases h : d < k
      · simp [h, Nat.lt_succ_of_lt h]
      · by_cases h2 : d = k
        · subst h2; simp [h, List.lookup]
        · have hb : (d == k) = false := beq_false_of_ne h2
          have h3 : ¬ d < k + 1 := by omega
          simp [h, h3, List.lookup, hb]

theorem degrees_create (k dim : ℕ) :
    (Fiber.create k dim).map Prod.fst = List.range k := by
  simp [Fiber.create, List.map_map]
  exact List.map_id _

theorem mem_degrees_create (k dim x : ℕ) :
    x ∈ Fiber.degrees (Fiber.create k dim) ↔ x < k := by
  rw [Fiber.degrees, degrees_create]
  exact List.mem_range

theorem dimOf_create (k dim x : ℕ) (h : x < k) :
    Fiber.dimOf (Fiber.create k dim) x = dim := by
  rw [Fiber.dimOf, lookup_create]
  simp [h]

/-- The hidden fiber of the attention layer over a created fiber is the
created fiber of the hidden width. -/
theorem hiddenFiber_create (k dim hd : ℕ) :
    hiddenFiber (Fiber.create k dim) hd = Fiber.create k hd := by
  simp [hiddenFiber, Fiber.create, List.map_map]

/-- The feedforward hidden fiber over a created fiber. -/
theorem ffHidden_create (k dim : ℕ) :
    (Fiber.create k dim).map (fun p => (p.1, p.2 * 4)) =
      Fiber.create k (dim * 4) := by
  simp [Fiber.create, List.map_map]

/-- `Fiber.__and__` of two created fibers. -/
theorem inter_create (a d1 b d2 : ℕ) :
    Fiber.inter (Fiber.create a d1) (Fiber.create b d2) =
      (List.range (min a b)).map (fun d => (d, d1, d2)) := by
  induction a with
  | zero => simp [Fiber.inter, Fiber.create]
  | succ a ih =>
      have hsplit : Fiber.create (a + 1) d1 =
          Fiber.create a d1 ++ [(a, d1)] := by
        simp [Fiber.create, List.range_succ]
      rw [Fiber.inter, hsplit, List.filterMap_append]
      rw [Fiber.inter] at ih
      rw [ih]
      by_cases h : a < b
      · have hmem : (a : ℕ) ∈ Fiber.degrees (Fiber.create b d2) :=
          (mem_degrees_create b d2 a).mpr h
        have hmin : min (a + 1) b = (min a b) + 1 := by omega
        have hmin2 : min a b = a := by omega
        simp [List.filterMap, hmem, dimOf_create b d2 a h, hmin, hmin2,
          List.range_succ]
      · have hmem : ¬ (a : ℕ) ∈ Fiber.degrees (Fiber.create b d2) := by
          rw [mem_degrees_create]; omega
        have hmin : min (a + 1) b = min a b := by omega
        simp [List.filterMap, hmem, hmin]

/-- Lookup in the weight dict of a `LinearSE3` built over created
fibers. -/
theorem lookup_mkLinear_create (a d1 b d2 : ℕ) (w : ℕ → ℕ → ℕ → ℚ) (d : ℕ) :
    List.lookup d (mkLinear (Fiber.create a d1) (Fiber.create b d2) w) =
      if d < min a b then some ⟨d1, d2, w d⟩ else none := by
  rw [mkLinear, inter_create]
  induction (min a b) with
  | zero => simp [List.lookup]
  | succ k ih =>
      rw [List.range_succ]
      simp only [List.map_append, List.map_cons, List.map_nil]
      rw [lookup_append, ih]
      by_cases h : d < k
      · simp [h, Nat.lt_succ_of_lt h]
      · by_cases h2 : d = k
        · subst h2; simp [h, List.lookup]
        · have hb : (d == k) = false := beq_false_of_ne h2
          have h3 : ¬ d < k + 1 := by omega
          simp [h, h3, List.lookup, hb]

/-- The last input degree of a created fiber. -/
theorem lastDegree_create (a dim : ℕ) (h : a ≠ 0) :
    lastDegree (Fiber.create a dim) = a - 1 := by
  obtain ⟨a0, rfl⟩ := Nat.exists_eq_succ_of_ne_zero h
  have hsplit : Fiber.create (a0 + 1) dim =
      Fiber.create a0 dim ++ [(a0, dim)] := by
    simp [Fiber.create, List.range_succ]
  rw [lastDegree, hsplit, List.foldl_append]
  rfl

/-- Key membership of the spec-modelled `get_basis` output. -/
theorem lookup_getBasis_isSome (maxDeg : ℕ) (basisData : ℕ × ℕ → BasisTensor)
    (di dOut : ℕ) :
    (List.lookup (di, dOut) (getBasis maxDeg basisData)).isSome ↔
      di ≤ maxDeg ∧ dOut ≤ maxDeg := by
  rw [lookup_isSome_iff, getBasis]
  simp only [List.map_flatMap, List.map_map, List.mem_flatMap, List.mem_map,
    List.mem_range]
  constructor
  · rintro ⟨x, hx, y, hy, he⟩
    obtain ⟨h1, h2⟩ := Prod.mk.injEq _ _ _ _ ▸ he
    simp only [Function.comp] at he
    have : (x, y) = (di, dOut) := he
    cases this
    omega
  · rintro ⟨h1, h2⟩
    exact ⟨di, by omega, dOut, by omega, rfl⟩

/-! ## Claim C8: well-shapedness transport through the pipeline -/

/-- Well-shapedness of a feature map for the fiber
`Fiber.create k dim` at batch size `B` and point count `N`: the keys are
exactly `0..k-1` and each degree-`d` tensor is shaped
`[B, N, dim, 2*d+1]`. -/
def WSc (k dim B N : ℕ) (fm : FeatureMap) : Prop :=
  fmKeys fm = List.range k ∧
  ∀ d, d < k → (lookupT d fm).b = B ∧ (lookupT d fm).n = N ∧
    (lookupT d fm).c = dim ∧ (lookupT d fm).m = 2 * d + 1

/-- A well-shaped map's lookups are populated. -/
theorem WSc_lookup_some (k dim B N : ℕ) (fm : FeatureMap)
    (h : WSc k dim B N fm) (d : ℕ) (hd : d < k) :
    List.lookup d fm = some (lookupT d fm) := by
  have hmem : d ∈ fm.map Prod.fst := by
    rw [← fmKeys, h.1]; exact List.mem_range.mpr hd
  obtain ⟨v, hv⟩ := Option.isSome_iff_exists.mp ((lookup_isSome_iff d fm).mpr hmem)
  rw [hv, lookupT, hv]
  rfl

/-- Any populated lookup of a well-shaped map is a well-shaped degree. -/
theorem WSc_lookup_shape (k dim B N : ℕ) (fm : FeatureMap)
    (h : WSc k dim B N fm) (d : ℕ) (r : STensor)
    (hr : List.lookup d fm = some r) :
    d < k ∧ r.b = B ∧ r.n = N ∧ r.c = dim ∧ r.m = 2 * d + 1 := by
  have hmem : d ∈ fm.map Prod.fst :=
    (lookup_isSome_iff d fm).mp (by rw [hr]; rfl)
  have hd : d < k := List.mem_range.mp (by rw [← h.1]; exact hmem)
  have hT : lookupT d fm = r := by rw [lookupT, hr]; rfl
  obtain ⟨hb, hn, hc, hm⟩ := h.2 d hd
  rw [hT] at hb hn hc hm
  exact ⟨hd, hb, hn, hc, hm⟩

/-- `LinearSE3` over created fibers transports well-shapedness, cutting
the degrees to the intersection and replacing the channel width. -/
theorem WSc_linear (a d1 b d2 B N : ℕ) (w : ℕ → ℕ → ℕ → ℚ) (x : FeatureMap)
    (h : WSc a d1 B N x) :
    WSc (min a b) d2 B N
      (linearSE3 (mkLinear (Fiber.create a d1) (Fiber.create b d2) w) x) := by
  constructor
  · rw [fmKeys_linear, mkLinear, inter_create, List.map_map, List.map_map]
    exact List.map_id _
  · intro d hd
    have hW : List.lookup d (mkLinear (Fiber.create a d1) (Fiber.create b d2) w) =
        some ⟨d1, d2, w d⟩ := by
      rw [lookup_mkLinear_create]
      simp [hd]
    have hl : List.lookup d
        (linearSE3 (mkLinear (Fiber.create a d1) (Fiber.create b d2) w) x) =
        some (linearTensor ⟨d1, d2, w d⟩ (lookupT d x)) := by
      rw [lookup_linear, hW]
      rfl
    have hT : lookupT d
        (linearSE3 (mkLinear (Fiber.create a d1) (Fiber.create b d2) w) x) =
        linearTensor ⟨d1, d2, w d⟩ (lookupT d x) := by
      rw [lookupT, hl]
      rfl
    obtain ⟨hb, hn, _, hm⟩ := h.2 d (lt_of_lt_of_le hd (by omega))
    rw [hT]
    exact ⟨hb, hn, rfl, by rw [linearTensor, hm]⟩

/-- `NormSE3` preserves well-shapedness. -/
theorem WSc_norm (k dim B N : ℕ) (qsqrt : ℚ → ℚ) (p : NormParams)
    (x : FeatureMap) (h : WSc k dim B N x) :
    WSc k dim B N (normSE3 qsqrt p x) := by
  constructor
  · rw [normSE3, fmKeys_map_keyed (fun d t => normTensor qsqrt p d t), ← fmKeys, h.1]
  · intro d hd
    have hx := WSc_lookup_some k dim B N x h d hd
    have hl : List.lookup d (normSE3 qsqrt p x) =
        some (normTensor qsqrt p d (lookupT d x)) := by
      rw [lookup_norm, hx]
      rfl
    have hT : lookupT d (normSE3 qsqrt p x) =
        normTensor qsqrt p d (lookupT d x) := by
      rw [lookupT, hl]
      rfl
    obtain ⟨hb, hn, hc, hm⟩ := h.2 d hd
    rw [hT]
    exact ⟨hb, hn, hc, hm⟩

/-- `broadcastAdd` succeeds on equal shapes and keeps them. -/
theorem broadcastAdd_same (t r : STensor) (hb : t.b = r.b) (hn : t.n = r.n)
    (hc : t.c = r.c) (hm : t.m = r.m) :
    ∃ s, broadcastAdd t r = some s ∧
      s.b = t.b ∧ s.n = t.n ∧ s.c = t.c ∧ s.m = t.m := by
  have h : broadcastAdd t r = some ⟨r.b, r.n, r.c, r.m, fun bi ni ci mi =>
      t.data (bIdx t.b bi) (bIdx t.n ni) (bIdx t.c ci) (bIdx t.m mi) +
      r.data (bIdx r.b bi) (bIdx r.n ni) (bIdx r.c ci) (bIdx r.m mi)⟩ := by
    simp [broadcastAdd, bcDim, hb, hn, hc, hm]
  exact ⟨_, h, hb.symm, hn.symm, hc.symm, hm.symm⟩

/-- `ResidualSE3` succeeds when every entry of `x` either misses `res`
or matches its shape there, and the output keeps `x`'s shapes. -/
theorem residual_WSc (k dim B N : ℕ) (x res : FeatureMap)
    (hx : WSc k dim B N x)
    (hres : ∀ d r, List.lookup d res = some r →
      r.b = B ∧ r.n = N ∧ r.c = dim ∧ r.m = 2 * d + 1) :
    ∃ out, residualSE3 x res = some out ∧ WSc k dim B N out := by
  have hnd : (x.map Prod.fst).Nodup := by
    rw [← fmKeys, hx.1]; exact List.nodup_range k
  have hok : ∀ y : FeatureMap, (∀ p ∈ y, (residualEntry res p).isSome) →
      (residualSE3 y res).isSome := by
    intro y
    induction y with
    | nil => intro _; rfl
    | cons p rest ih =>
        intro hall
        have hp := hall p (List.mem_cons_self p rest)
        obtain ⟨q, hq⟩ := Option.isSome_iff_exists.mp hp
        have htail := ih (fun r hr => hall r (List.mem_cons_of_mem p hr))
        obtain ⟨tl, htl⟩ := Option.isSome_iff_exists.mp htail
        simp [residualSE3, hq, htl]
  have hall : ∀ p ∈ x, (residualEntry res p).isSome := by
    intro p hp
    have hlp : List.lookup p.1 x = some p.2 := lookup_of_mem_nodup hnd hp
    obtain ⟨hdk, hb, hn, hc, hm⟩ := WSc_lookup_shape k dim B N x hx p.1 p.2 hlp
    rw [residualEntry]
    cases hlr : List.lookup p.1 res with
    | none => rfl
    | some r =>
        obtain ⟨rb, rn, rc, rm⟩ := hres p.1 r hlr
        obtain ⟨s, hs, _⟩ := broadcastAdd_same p.2 r (by rw [hb, rb])
          (by rw [hn, rn]) (by rw [hc, rc]) (by rw [hm, rm])
        simp [hs]
  obtain ⟨out, hout⟩ := Option.isSome_iff_exists.mp (hok x hall)
  refine ⟨out, hout, ?_, ?_⟩
  · obtain ⟨hkeys, _, _, _⟩ := residual_characterization x res out hout
    rw [hkeys, hx.1]
  · intro d hd
    obtain ⟨hkeys, hpass, hadd, _⟩ := residual_characterization x res out hout
    have hxl := WSc_lookup_some k dim B N x hx d hd
    obtain ⟨_, hb, hn, hc, hm⟩ := WSc_lookup_shape k dim B N x hx d _ hxl
    cases hlr : List.lookup d res with
    | none =>
        have ho := hpass d _ hxl hlr
        have hT : lookupT d out = lookupT d x := by rw [lookupT, ho]; rfl
        rw [hT]
        exact ⟨hb, hn, hc, hm⟩
    | some r =>
        have ho := hadd d _ r hxl hlr
        obtain ⟨rb, rn, rc, rm⟩ := hres d r hlr
        obtain ⟨s, hs, sb, sn, sc, sm⟩ := broadcastAdd_same (lookupT d x) r
          (by rw [hb, rb]) (by rw [hn, rn]) (by rw [hc, rc]) (by rw [hm, rm])
        rw [hs] at ho
        have hT : lookupT d out = s := by rw [lookupT, ho]; rfl
        rw [hT, sb, sn, sc, sm]
        exact ⟨hb, hn, hc, hm⟩

/-! ## Claim C8: the basis-key check and convolution transport -/

theorem mem_create (k dim : ℕ) (p : ℕ × ℕ) :
    p ∈ Fiber.create k dim ↔ p.1 < k ∧ p.2 = dim := by
  simp only [Fiber.create, List.mem_map, List.mem_range]
  constructor
  · rintro ⟨d, hd, rfl⟩
    exact ⟨hd, rfl⟩
  · rintro ⟨h1, h2⟩
    exact ⟨p.1, h1, by rw [← h2]⟩

theorem mem_prodF (f g : Fiber) (pr : (ℕ × ℕ) × (ℕ × ℕ)) :
    pr ∈ Fiber.prodF f g ↔ pr.1 ∈ f ∧ pr.2 ∈ g := by
  simp only [Fiber.prodF, List.mem_flatMap, List.mem_map]
  constructor
  · rintro ⟨a, ha, p, hp, rfl⟩
    exact ⟨ha, hp⟩
  · rintro ⟨h1, h2⟩
    exact ⟨pr.1, h1, pr.2, h2, rfl⟩

/-- The kernel-building loop succeeds when every degree pair has a basis
entry. -/
theorem convCheckBasis_ok (pairs : List ((ℕ × ℕ) × (ℕ × ℕ))) (basis : Basis)
    (h : ∀ pr ∈ pairs, (List.lookup (pr.1.1, pr.2.1) basis).isSome) :
    convCheckBasis pairs basis = .ok () := by
  induction pairs with
  | nil => rfl
  | cons pr rest ih =>
      have hh := h pr (List.mem_cons_self pr rest)
      rw [convCheckBasis]
      rw [hh]
      simp only [if_true]
      exact ih (fun q hq => h q (List.mem_cons_of_mem pr hq))

/-- A passing prefix of the kernel-building loop is skipped. -/
theorem convCheckBasis_append_ok (l1 l2 : List ((ℕ × ℕ) × (ℕ × ℕ)))
    (basis : Basis) (h : convCheckBasis l1 basis = .ok ()) :
    convCheckBasis (l1 ++ l2) basis = convCheckBasis l2 basis := by
  induction l1 with
  | nil => rfl
  | cons pr rest ih =>
      rw [convCheckBasis] at h
      cases hlk : (List.lookup (pr.1.1, pr.2.1) basis).isSome with
      | false => rw [hlk] at h; simp at h
      | true =>
          rw [hlk] at h
          simp only [if_true] at h
          rw [List.cons_append, convCheckBasis, hlk]
          simp only [if_true]
          exact ih h

/-- `ConvSE3.forward` (pooled, with self-interaction — the configuration
of `conv_in` and `conv_out`) over created fibers transports
well-shapedness when every needed basis key is present. -/
theorem convSE3_pooled_WSc (qsqrt : ℚ → ℚ) (a bOut dim B N : ℕ)
    (thetaR : ℕ × ℕ → RadialParams) (thetaW : ℕ → ℕ → ℕ → ℚ)
    (inp : FeatureMap) (edges : EdgeInfo) (relDist : RelDist) (basis : Basis)
    (ha : a ≠ 0) (hin : WSc a dim B N inp)
    (hbasis : ∀ di dOut, di < a → dOut < bOut →
      (List.lookup (di, dOut) basis).isSome) :
    ∃ out, convSE3_pooled qsqrt true
        (mkConv (Fiber.create a dim) (Fiber.create bOut dim) thetaR thetaW)
        inp edges relDist basis = .ok out ∧ WSc bOut dim B N out := by
  set p := mkConv (Fiber.create a dim) (Fiber.create bOut dim) thetaR thetaW with hp
  have hcheck : convCheckBasis (Fiber.prodF p.fiberIn p.fiberOut) basis = .ok () := by
    apply convCheckBasis_ok
    intro pr hpr
    rw [mem_prodF] at hpr
    obtain ⟨h1, h2⟩ := hpr
    have hd1 := (mem_create a dim pr.1).mp h1
    have hd2 := (mem_create bOut dim pr.2).mp h2
    exact hbasis pr.1.1 pr.2.1 hd1.1 hd2.1
  set xLast := lookupT (lastDegree p.fiberIn) inp with hxl
  set outputs : FeatureMap := p.fiberOut.map (fun q =>
    (q.1, convPooledEntry qsqrt p inp edges relDist basis xLast q.1 q.2)) with hout
  have hlastlt : lastDegree p.fiberIn < a := by
    have : lastDegree p.fiberIn = a - 1 := lastDegree_create a dim ha
    omega
  have hxlb : xLast.b = B := (hin.2 _ hlastlt).1
  have hxln : xLast.n = N := (hin.2 _ hlastlt).2.1
  have houtWS : WSc bOut dim B N outputs := by
    constructor
    · rw [hout, fmKeys_map_keyed
        (fun d c => convPooledEntry qsqrt p inp edges relDist basis xLast d c)]
      exact degrees_create bOut dim
    · intro d hd
      have hl : List.lookup d outputs =
          some (convPooledEntry qsqrt p inp edges relDist basis xLast d dim) := by
        rw [hout, lookup_map_keyed
          (fun dd c => convPooledEntry qsqrt p inp edges relDist basis xLast dd c)]
        have : List.lookup d p.fiberOut = some dim := by
          rw [hp]; exact (lookup_create bOut dim d).trans (by simp [hd])
        rw [this]
        rfl
      have hT : lookupT d outputs =
          convPooledEntry qsqrt p inp edges relDist basis xLast d dim := by
        rw [lookupT, hl]; rfl
      rw [hT]
      exact ⟨hxlb, hxln, rfl, rfl⟩
  have hres : ∀ d r, List.lookup d (linearSE3 p.selfInteract inp) = some r →
      r.b = B ∧ r.n = N ∧ r.c = dim ∧ r.m = 2 * d + 1 := by
    intro d r hr
    rw [lookup_linear] at hr
    have hw : p.selfInteract = mkLinear (Fiber.create a dim) (Fiber.create bOut dim) thetaW := rfl
    rw [hw, lookup_mkLinear_create] at hr
    by_cases hd : d < min a bOut
    · rw [if_pos hd] at hr
      simp only [Option.map_some', Option.some_inj] at hr
      have hda : d < a := lt_of_lt_of_le hd (by omega)
      obtain ⟨hb, hn, _, hm⟩ := hin.2 d hda
      rw [← hr]
      exact ⟨hb, hn, rfl, by rw [linearTensor, hm]⟩
    · rw [if_neg hd] at hr
      cases hr
  obtain ⟨out, hsome, hWS⟩ := residual_WSc bOut dim B N outputs
    (linearSE3 p.selfInteract inp) houtWS hres
  refine ⟨out, ?_, hWS⟩
  simp only [convSE3_pooled, hcheck, if_true]
  rw [← hxl, ← hout, hsome]

/-! ## Claim C8: block transport -/

/-- The unpooled convolution succeeds whenever the basis check does. -/
theorem convSE3_unpooled_ok (qsqrt : ℚ → ℚ) (p : ConvParams) (inp : FeatureMap)
    (edges : EdgeInfo) (relDist : RelDist) (basis : Basis)
    (hcheck : convCheckBasis (Fiber.prodF p.fiberIn p.fiberOut) basis = .ok ()) :
    ∃ keys, convSE3_unpooled qsqrt p inp edges relDist basis = .ok keys := by
  simp only [convSE3_unpooled, hcheck]
  exact ⟨_, rfl⟩

/-- A successful `AttentionSE3.forward` equals `to_out` of the queries
(value form used for the pipeline transport). -/
theorem attentionSE3_ok (qsqrt qexp : ℚ → ℚ) (p : AttnParams)
    (features : FeatureMap) (edges : EdgeInfo) (relDist : RelDist) (basis : Basis)
    (hk : convCheckBasis (Fiber.prodF p.toK.fiberIn p.toK.fiberOut) basis = .ok ())
    (hv : convCheckBasis (Fiber.prodF p.toV.fiberIn p.toV.fiberOut) basis = .ok ()) :
    attentionSE3 qsqrt qexp p features edges relDist basis =
      .ok (linearSE3 p.toOut (linearSE3 p.toQ features)) := by
  obtain ⟨keys, hkeys⟩ :=
    convSE3_unpooled_ok qsqrt p.toK features edges relDist basis hk
  obtain ⟨vals, hvals⟩ :=
    convSE3_unpooled_ok qsqrt p.toV features edges relDist basis hv
  simp only [attentionSE3, hkeys, hvals]

/-- The attention block over the hidden fiber transports
well-shapedness when the hidden-degree basis keys are present. -/
theorem attnBlockSE3_WSc (qsqrt qexp : ℚ → ℚ) (k dim B N heads dimHead : ℕ)
    (attendSelf : Bool) (t : LayerTheta) (x : FeatureMap) (edges : EdgeInfo)
    (relDist : RelDist) (basis : Basis) (hx : WSc k dim B N x)
    (hbasis : ∀ di dOut, di < k → dOut < k →
      (List.lookup (di, dOut) basis).isSome) :
    ∃ out, attnBlockSE3 qsqrt qexp
        (mkAttnBlock (Fiber.create k dim) heads dimHead attendSelf t)
        x edges relDist basis = .ok out ∧ WSc k dim B N out := by
  set bp := mkAttnBlock (Fiber.create k dim) heads dimHead attendSelf t with hbp
  have hkf : bp.attn.toK.fiberIn = Fiber.create k dim := rfl
  have hko : bp.attn.toK.fiberOut = Fiber.create k (dimHead * heads) := by
    show hiddenFiber (Fiber.create k dim) (dimHead * heads) = _
    exact hiddenFiber_create k dim (dimHead * heads)
  have hvf : bp.attn.toV.fiberIn = Fiber.create k dim := rfl
  have hvo : bp.attn.toV.fiberOut = Fiber.create k (dimHead * heads) := by
    show hiddenFiber (Fiber.create k dim) (dimHead * heads) = _
    exact hiddenFiber_create k dim (dimHead * heads)
  have hcheckK : convCheckBasis
      (Fiber.prodF bp.attn.toK.fiberIn bp.attn.toK.fiberOut) basis = .ok () := by
    rw [hkf, hko]
    apply convCheckBasis_ok
    intro pr hpr
    rw [mem_prodF] at hpr
    exact hbasis pr.1.1 pr.2.1 ((mem_create _ _ _).mp hpr.1).1
      ((mem_create _ _ _).mp hpr.2).1
  have hcheckV : convCheckBasis
      (Fiber.prodF bp.attn.toV.fiberIn bp.attn.toV.fiberOut) basis = .ok () := by
    rw [hvf, hvo]
    apply convCheckBasis_ok
    intro pr hpr
    rw [mem_prodF] at hpr
    exact hbasis pr.1.1 pr.2.1 ((mem_create _ _ _).mp hpr.1).1
      ((mem_create _ _ _).mp hpr.2).1
  set pn := normSE3 qsqrt bp.prenorm x with hpn
  have hpnWS : WSc k dim B N pn := WSc_norm k dim B N qsqrt bp.prenorm x hx
  have hattn := attentionSE3_ok qsqrt qexp bp.attn pn edges relDist basis
    hcheckK hcheckV
  set attnOut := linearSE3 bp.attn.toOut (linearSE3 bp.attn.toQ pn) with hao
  have haoWS : WSc k dim B N attnOut := by
    have hq : bp.attn.toQ = mkLinear (Fiber.create k dim)
        (Fiber.create k (dimHead * heads)) t.atn.q := by
      show mkLinear (Fiber.create k dim)
        (hiddenFiber (Fiber.create k dim) (dimHead * heads)) t.atn.q = _
      rw [hiddenFiber_create]
    have ho : bp.attn.toOut = mkLinear (Fiber.create k (dimHead * heads))
        (Fiber.create k dim) t.atn.out := by
      show mkLinear (hiddenFiber (Fiber.create k dim) (dimHead * heads))
        (Fiber.create k dim) t.atn.out = _
      rw [hiddenFiber_create]
    rw [hao, hq, ho]
    have h1 := WSc_linear k dim k (dimHead * heads) B N t.atn.q pn hpnWS
    rw [min_self] at h1
    have h2 := WSc_linear k (dimHead * heads) k dim B N t.atn.out _ h1
    rw [min_self] at h2
    exact h2
  obtain ⟨out, hsome, hWS⟩ := residual_WSc k dim B N attnOut x haoWS
    (fun d r hr => by
      obtain ⟨_, hb, hn, hc, hm⟩ := WSc_lookup_shape k dim B N x hx d r hr
      exact ⟨hb, hn, hc, hm⟩)
  refine ⟨out, ?_, hWS⟩
  simp only [attnBlockSE3, ← hpn, hattn, ← hao, hsome]

/-- The feedforward block transports well-shapedness. -/
theorem ffBlockSE3_WSc (qsqrt : ℚ → ℚ) (k dim B N : ℕ) (t : LayerTheta)
    (x : FeatureMap) (hx : WSc k dim B N x) :
    ∃ out, ffBlockSE3 qsqrt (mkFFBlock (Fiber.create k dim) t) x = .ok out ∧
      WSc k dim B N out := by
  set bp := mkFFBlock (Fiber.create k dim) t with hbp
  set pn := normSE3 qsqrt bp.prenorm x with hpn
  have hpnWS : WSc k dim B N pn := WSc_norm k dim B N qsqrt bp.prenorm x hx
  have hin : bp.ff.projectIn = mkLinear (Fiber.create k dim)
      (Fiber.create k (dim * 4)) t.ff.inW := by
    show mkLinear (Fiber.create k dim)
      ((Fiber.create k dim).map (fun p => (p.1, p.2 * 4))) t.ff.inW = _
    rw [ffHidden_create]
  have hout : bp.ff.projectOut = mkLinear (Fiber.create k (dim * 4))
      (Fiber.create k dim) t.ff.outW := by
    show mkLinear ((Fiber.create k dim).map (fun p => (p.1, p.2 * 4)))
      (Fiber.create k dim) t.ff.outW = _
    rw [ffHidden_create]
  have hffWS : WSc k dim B N (feedForwardSE3 qsqrt bp.ff pn) := by
    rw [feedForwardSE3, hin, hout]
    have h1 := WSc_linear k dim k (dim * 4) B N t.ff.inW pn hpnWS
    rw [min_self] at h1
    have h2 := WSc_norm k (dim * 4) B N qsqrt bp.ff.nonlinP _ h1
    have h3 := WSc_linear k (dim * 4) k dim B N t.ff.outW _ h2
    rw [min_self] at h3
    exact h3
  obtain ⟨out, hsome, hWS⟩ := residual_WSc k dim B N
    (feedForwardSE3 qsqrt bp.ff pn) x hffWS
    (fun d r hr => by
      obtain ⟨_, hb, hn, hc, hm⟩ := WSc_lookup_shape k dim B N x hx d r hr
      exact ⟨hb, hn, hc, hm⟩)
  refine ⟨out, ?_, hWS⟩
  rw [ffBlockSE3, ← hpn, hsome]

/-! ## Claim C8: the layer fold, the failing output convolution, and the
top-level theorem -/

theorem exceptBind_ok {α β : Type} (a : α) (f : α → Except SE3Err β) :
    (Except.ok a >>= f) = f a := rfl

/-- The transformer layer stack transports well-shapedness. -/
theorem layers_fold_WSc (qsqrt qexp : ℚ → ℚ) (k dim B N heads dimHead : ℕ)
    (attendSelf : Bool) (ts : List LayerTheta) (x : FeatureMap)
    (edges : EdgeInfo) (relDist : RelDist) (basis : Basis)
    (hx : WSc k dim B N x)
    (hbasis : ∀ di dOut, di < k → dOut < k →
      (List.lookup (di, dOut) basis).isSome) :
    ∃ out, (ts.map (fun t =>
        (mkAttnBlock (Fiber.create k dim) heads dimHead attendSelf t,
         mkFFBlock (Fiber.create k dim) t))).foldlM (fun acc l => do
          let y ← attnBlockSE3 qsqrt qexp l.1 acc edges relDist basis
          ffBlockSE3 qsqrt l.2 y) x = .ok out ∧ WSc k dim B N out := by
  induction ts generalizing x with
  | nil => exact ⟨x, rfl, hx⟩
  | cons t rest ih =>
      obtain ⟨y, hy, hyWS⟩ := attnBlockSE3_WSc qsqrt qexp k dim B N heads
        dimHead attendSelf t x edges relDist basis hx hbasis
      obtain ⟨z, hz, hzWS⟩ := ffBlockSE3_WSc qsqrt k dim B N t y hyWS
      obtain ⟨out, hout, houtWS⟩ := ih z hzWS
      refine ⟨out, ?_, houtWS⟩
      rw [List.map_cons, List.foldlM_cons]
      show (do
        let y ← attnBlockSE3 qsqrt qexp
          (mkAttnBlock (Fiber.create k dim) heads dimHead attendSelf t) x
          edges relDist basis
        ffBlockSE3 qsqrt (mkFFBlock (Fiber.create k dim) t) y) >>= _ = _
      rw [show (do
        let y ← attnBlockSE3 qsqrt qexp
          (mkAttnBlock (Fiber.create k dim) heads dimHead attendSelf t) x
          edges relDist basis
        ffBlockSE3 qsqrt (mkFFBlock (Fiber.create k dim) t) y) =
          Except.ok z from by rw [hy, exceptBind_ok, hz]]
      rw [exceptBind_ok]
      exact hout

/-- An erroring prefix of the kernel-building loop decides the
result. -/
theorem convCheckBasis_append_err (l1 l2 : List ((ℕ × ℕ) × (ℕ × ℕ)))
    (basis : Basis) (e : SE3Err) (h : convCheckBasis l1 basis = .error e) :
    convCheckBasis (l1 ++ l2) basis = .error e := by
  induction l1 with
  | nil => cases h
  | cons pr rest ih =>
      rw [convCheckBasis] at h
      cases hlk : (List.lookup (pr.1.1, pr.2.1) basis).isSome with
      | false =>
          rw [hlk] at h
          rw [List.cons_append, convCheckBasis, hlk]
          simp only [Bool.false_eq_true, if_false] at h ⊢
          exact h
      | true =>
          rw [hlk] at h
          simp only [if_true] at h
          rw [List.cons_append, convCheckBasis, hlk]
          simp only [if_true]
          exact ih h

/-- The kernel-building loop of `conv_out` raises a missing-key error at
`(0, num_degrees)` whenever `output_degrees` exceeds `num_degrees`: the
basis was requested only up to maximum degree `num_degrees - 1`. -/
theorem convCheckBasis_out_error (nD outD dim : ℕ)
    (basisData : ℕ × ℕ → BasisTensor) (h1 : 1 ≤ nD) (h2 : nD < outD) :
    convCheckBasis
      (Fiber.prodF (Fiber.create nD dim) (Fiber.create outD dim))
      (getBasis (nD - 1) basisData) = .error (.missingKey 0 nD) := by
  set basis := getBasis (nD - 1) basisData with hb
  obtain ⟨n0, hn0⟩ : ∃ n0, nD = n0 + 1 := ⟨nD - 1, by omega⟩
  have hsplitIn : Fiber.create nD dim =
      ((0 : ℕ), dim) :: (List.range n0).map (fun d => (d + 1, dim)) := by
    rw [Fiber.create, hn0, List.range_succ_eq_map, List.map_cons, List.map_map]
    rfl
  rw [hsplitIn, Fiber.prodF, List.flatMap_cons]
  have hblock0 : (Fiber.create outD dim).map
      (fun p => ((((0 : ℕ), dim) : ℕ × ℕ), p)) =
      ((List.range nD).map (fun d => (((0 : ℕ), dim), (d, dim)))) ++
      ((List.range (outD - nD)).map (fun x => (((0 : ℕ), dim), (nD + x, dim)))) := by
    conv_lhs => rw [Fiber.create,
      show outD = nD + (outD - nD) from by omega, List.range_add]
    simp only [List.map_append, List.map_map]
    rfl
  rw [hblock0, List.append_assoc]
  have hokA : convCheckBasis
      ((List.range nD).map (fun d => ((((0 : ℕ), dim) : ℕ × ℕ), (d, dim))))
      basis = .ok () := by
    apply convCheckBasis_ok
    intro pr hpr
    simp only [List.mem_map, List.mem_range] at hpr
    obtain ⟨d, hd, rfl⟩ := hpr
    show (List.lookup ((0 : ℕ), d) basis).isSome = true
    rw [hb, lookup_getBasis_isSome]
    omega
  rw [convCheckBasis_append_ok _ _ basis hokA]
  obtain ⟨m, hm⟩ : ∃ m, outD - nD = m + 1 := ⟨outD - nD - 1, by omega⟩
  rw [hm, List.range_succ_eq_map, List.map_cons, List.cons_append]
  have hfalse : (List.lookup ((0 : ℕ), nD + 0) basis).isSome = false := by
    rw [Nat.add_zero, hb]
    rw [Bool.eq_false_iff]
    rw [Ne, lookup_getBasis_isSome]
    omega
  rw [convCheckBasis, hfalse]
  simp

/-- A failing kernel-building loop decides the pooled convolution's
result. -/
theorem convSE3_pooled_error (qsqrt : ℚ → ℚ) (si : Bool) (p : ConvParams)
    (inp : FeatureMap) (edges : EdgeInfo) (relDist : RelDist) (basis : Basis)
    (e : SE3Err)
    (hcheck : convCheckBasis (Fiber.prodF p.fiberIn p.fiberOut) basis = .error e) :
    convSE3_pooled qsqrt si p inp edges relDist basis = .error e := by
  simp only [convSE3_pooled, hcheck]

/-- The pipeline of a transformer with `output_degrees > num_degrees`
fails at `conv_out` with the missing basis key `(0, num_degrees)`,
whatever the edge set and distances. -/
theorem se3Pipeline_missing_key (qsqrt qexp : ℚ → ℚ) (cfg : SE3Config)
    (th : SE3Theta) (feats : FeatureMap) (edges : EdgeInfo) (relD : RelDist)
    (basisData : ℕ × ℕ → BasisTensor) (B N : ℕ)
    (hfeats : WSc cfg.inputDegrees cfg.dim B N feats)
    (hin1 : 1 ≤ cfg.inputDegrees) (hinle : cfg.inputDegrees ≤ cfg.numDegrees)
    (hout : cfg.numDegrees < cfg.outputDegrees) :
    se3Pipeline qsqrt qexp (mkSE3 cfg th) feats edges relD
      (getBasis (cfg.numDegrees - 1) basisData) =
      .error (.missingKey 0 cfg.numDegrees) := by
  set basis := getBasis (cfg.numDegrees - 1) basisData with hb
  have hbasisHid : ∀ di dOut, di < cfg.numDegrees → dOut < cfg.numDegrees →
      (List.lookup (di, dOut) basis).isSome = true := by
    intro di dOut hd1 hd2
    rw [hb, lookup_getBasis_isSome]
    omega
  obtain ⟨x1, hx1, hx1WS⟩ := convSE3_pooled_WSc qsqrt cfg.inputDegrees
    cfg.numDegrees cfg.dim B N th.convInR th.convInW feats edges relD basis
    (by omega) hfeats
    (fun di dOut h1 h2 => hbasisHid di dOut (by omega) h2)
  obtain ⟨x2, hx2, hx2WS⟩ := layers_fold_WSc qsqrt qexp cfg.numDegrees cfg.dim
    B N cfg.heads cfg.dimHead cfg.attendSelf th.layers x1 edges relD basis
    hx1WS hbasisHid
  have hcheckout := convCheckBasis_out_error cfg.numDegrees cfg.outputDegrees
    cfg.dim basisData (by omega) hout
  have hconvout : convSE3_pooled qsqrt true
      (mkConv (Fiber.create cfg.numDegrees cfg.dim)
        (Fiber.create cfg.outputDegrees cfg.dim) th.convOutR th.convOutW)
      x2 edges relD basis = .error (.missingKey 0 cfg.numDegrees) := by
    apply convSE3_pooled_error
    rw [hb]
    exact hcheckout
  have hpIn : (mkSE3 cfg th).convIn =
      mkConv (Fiber.create cfg.inputDegrees cfg.dim)
        (Fiber.create cfg.numDegrees cfg.dim) th.convInR th.convInW := rfl
  have hpLayers : (mkSE3 cfg th).layers = th.layers.map (fun t =>
      (mkAttnBlock (Fiber.create cfg.numDegrees cfg.dim) cfg.heads cfg.dimHead
        cfg.attendSelf t,
       mkFFBlock (Fiber.create cfg.numDegrees cfg.dim) t)) := rfl
  have hpOut : (mkSE3 cfg th).convOut =
      mkConv (Fiber.create cfg.numDegrees cfg.dim)
        (Fiber.create cfg.outputDegrees cfg.dim) th.convOutR th.convOutW := rfl
  simp only [se3Pipeline, hpIn, hx1, hpLayers, hx2, hpOut]
  exact hconvout

/-- C8: for every configuration with `output_degrees` strictly greater
than `num_degrees` (and a validly shaped input), `SE3Transformer.forward`
fails with a missing-key lookup: the basis is requested only up to
maximum degree `num_degrees - 1` (source line 523), while the output
convolution's `PairwiseConv` kernels look up basis entries up to degree
`output_degrees - 1`; the first lookup to fail is the key
`(0, num_degrees)`. -/
theorem c8_forward_missing_key (qsqrt qexp : ℚ → ℚ) (cfg : SE3Config)
    (th : SE3Theta) (feats : FeatureMap) (coors : Coors)
    (mask : Option (ℕ → ℕ → Bool)) (basisData : ℕ × ℕ → BasisTensor) (B N : ℕ)
    (hfeats : WSc cfg.inputDegrees cfg.dim B N feats)
    (hin1 : 1 ≤ cfg.inputDegrees) (hinle : cfg.inputDegrees ≤ cfg.numDegrees)
    (hout : cfg.numDegrees < cfg.outputDegrees) :
    se3Transformer qsqrt qexp (mkSE3 cfg th) feats coors mask basisData =
      .error (.missingKey 0 cfg.numDegrees) := by
  have hc : (lookupT 0 feats).c = (mkSE3 cfg th).cfg.dim :=
    (hfeats.2 0 (by omega)).2.2.1
  have hkeys : (fmKeys feats).toFinset =
      Finset.range (mkSE3 cfg th).cfg.inputDegrees := by
    have h1 : fmKeys feats = List.range cfg.inputDegrees := hfeats.1
    rw [h1, show (mkSE3 cfg th).cfg.inputDegrees = cfg.inputDegrees from rfl]
    ext x
    simp
  simp only [se3Transformer, if_pos hc, if_pos hkeys]
  exact se3Pipeline_missing_key qsqrt qexp cfg th feats _ _ basisData B N
    hfeats hin1 hinle hout

/-- Concrete configuration for the C8 witness: `num_degrees = 1`,
`output_degrees = 2`. -/
def c8cfg : SE3Config := ⟨1, 1, 1, 1, false, 1, 1, 2⟩

/-- Concrete raw parameters for the C8 witness (no layers, zero
weights). -/
def c8th : SE3Theta :=
  ⟨fun _ => radZero, fun _ _ _ => 0, [], fun _ => radZero, fun _ _ _ => 0⟩

/-- Witness for C8 at a concrete configuration and input: the forward
call fails with the missing basis key `(0, 1)`. -/
theorem c8_forward_missing_key_witness :
    se3Transformer (fun _ => 1) (fun _ => 1) (mkSE3 c8cfg c8th) c1x
      (fun _ _ _ => 0) none (fun _ => fun _ _ _ _ _ _ => 0) =
      .error (.missingKey 0 1) :=
  c8_forward_missing_key (fun _ => 1) (fun _ => 1) c8cfg c8th c1x
    (fun _ _ _ => 0) none (fun _ => fun _ _ _ _ _ _ => 0) 1 1
    ⟨by decide, by decide⟩ (by decide) (by decide) (by decide)

end SE3
